import Mathlib

/-!
Verification of the PMDA package-insert extraction engine.

This file gives a shallow embedding of the Python sources
(`src/parsers/dosage_parser.py`, `src/parsers/side_effect_parser.py`,
`src/parsers/xml_utils.py`) over an explicit XML-tree datatype, and proves
the stated properties of the extraction logic against that embedding.

The XML document model mirrors `xml.etree.ElementTree`: every element has a
tag, an optional `xml:lang` attribute (the only attribute the embedded code
reads), a `text` field, a `tail` field and a list of children.  Python's
`None` text is rendered as the empty string, which is observationally
equivalent for the embedded code (it only ever tests truthiness and
concatenates).
-/

/- ## Generic character-list and string utilities -/

/-- Whitespace set used by Python's `str.strip`. -/
def isWS (c : Char) : Bool :=
  decide (c = ' ' ∨ c = '\t' ∨ c = '\n' ∨ c = '\r' ∨ c = '\x0b' ∨ c = '\x0c')

/-- `str.strip` on a character list. -/
def stripChars (l : List Char) : List Char :=
  ((l.dropWhile isWS).reverse.dropWhile isWS).reverse

/-- Python `str.strip`. -/
def pstrip (s : String) : String := ⟨stripChars s.data⟩

/-- Does `s` start with the pattern `p` (character lists)? -/
def startsWithChars : List Char → List Char → Bool
  | [], _ => true
  | _ :: _, [] => false
  | p :: ps, c :: cs => decide (p = c) && startsWithChars ps cs

/-- Does the pattern `p` occur somewhere inside `s` (Python's `in`)? -/
def containsChars (p : List Char) : List Char → Bool
  | [] => p.isEmpty
  | c :: cs => startsWithChars p (c :: cs) || containsChars p cs

/-- Python `pat in s` on strings. -/
def containsSub (s pat : String) : Bool := containsChars pat.data s.data

/-- Python `sep.join(parts)`. -/
def joinSep (sep : String) : List String → String
  | [] => ""
  | [x] => x
  | x :: y :: rest => x ++ sep ++ joinSep sep (y :: rest)

/-- `s.replace('<?enter?>', repl)`: left-to-right, non-overlapping. -/
def replaceEnter (repl : List Char) : List Char → List Char
  | '<' :: '?' :: 'e' :: 'n' :: 't' :: 'e' :: 'r' :: '?' :: '>' :: rest =>
      repl ++ replaceEnter repl rest
  | c :: rest => c :: replaceEnter repl rest
  | [] => []

/-- The in-text line-break marker, as characters. -/
def enterMark : List Char := ['<', '?', 'e', 'n', 't', 'e', 'r', '?', '>']

/-- `s.split('<?enter?>')[0]`: the text before the first line-break marker. -/
def takeBeforeEnter : List Char → List Char
  | [] => []
  | c :: rest =>
    if startsWithChars enterMark (c :: rest) then []
    else c :: takeBeforeEnter rest

/-- String version of `takeBeforeEnter`. -/
def splitEnterHead (s : String) : String := ⟨takeBeforeEnter s.data⟩

/-- String version of `replaceEnter`. -/
def replaceEnterWith (repl : String) (s : String) : String :=
  ⟨replaceEnter repl.data s.data⟩

/- ## The XML document model -/

/-- An element of the parsed XML tree (`xml.etree.ElementTree.Element`). -/
inductive XmlNode where
  | node (tag : String) (lang : String) (text : String) (tail : String)
         (children : List XmlNode)

def XmlNode.tag : XmlNode → String | .node t _ _ _ _ => t
def XmlNode.lang : XmlNode → String | .node _ l _ _ _ => l
def XmlNode.text : XmlNode → String | .node _ _ x _ _ => x
def XmlNode.tail : XmlNode → String | .node _ _ _ tl _ => tl
def XmlNode.children : XmlNode → List XmlNode | .node _ _ _ _ ch => ch

mutual
/-- `element.itertext()` joined: own text, then each child's itertext
followed by its tail, in document order. -/
def itertext : XmlNode → String
  | .node _ _ x _ ch => x ++ itertextF ch

def itertextF : List XmlNode → String
  | [] => ""
  | c :: cs => itertext c ++ c.tail ++ itertextF cs
end

mutual
/-- The element itself followed by all its descendants, in document
(pre-)order; this is the iteration order of `ElementTree`. -/
def subtreeList : XmlNode → List XmlNode
  | .node t l x tl ch => .node t l x tl ch :: subtreeF ch

def subtreeF : List XmlNode → List XmlNode
  | [] => []
  | c :: cs => subtreeList c ++ subtreeF cs
end

/-- All strict descendants of a node, in document order. -/
def descendants : XmlNode → List XmlNode
  | .node _ _ _ _ ch => subtreeF ch

/-- Tag test used by all the path queries. -/
def hasTag (t : String) (n : XmlNode) : Bool := decide (n.tag = t)

/-- Is the node a `Lang` element with `xml:lang="ja"`? -/
def isLangJa (n : XmlNode) : Bool := decide (n.tag = "Lang" ∧ n.lang = "ja")

/-- `element.findall('.//pmda:T')`: all strict descendants with tag `T`,
in document order. -/
def findAllDesc (n : XmlNode) (t : String) : List XmlNode :=
  (descendants n).filter (hasTag t)

/-- `element.find('.//pmda:T')`: the first such descendant, if any. -/
def findFirstDesc (n : XmlNode) (t : String) : Option XmlNode :=
  (findAllDesc n t).head?

/-- `element.findall('./pmda:T')`: children with tag `T`. -/
def childrenTag (n : XmlNode) (t : String) : List XmlNode :=
  n.children.filter (hasTag t)

/-- `element.findall('./pmda:T/pmda:Lang[@xml:lang="ja"]')`. -/
def childPathLang (n : XmlNode) (t : String) : List XmlNode :=
  (childrenTag n t).flatMap (fun a => a.children.filter isLangJa)

/-- `element.findall('.//pmda:T/pmda:Lang[@xml:lang="ja"]')`: matching the
`ElementPath` evaluation order (each descendant `T` in document order
contributes its direct `Lang` children). -/
def descPathLang (n : XmlNode) (t : String) : List XmlNode :=
  (findAllDesc n t).flatMap (fun a => a.children.filter isLangJa)

/-- `element.findall('.//pmda:Lang[@xml:lang="ja"]')`. -/
def descLangJa (n : XmlNode) : List XmlNode :=
  (descendants n).filter isLangJa

/-- `element.findall('./pmda:A/pmda:B')`. -/
def childPath2 (n : XmlNode) (a b : String) : List XmlNode :=
  (childrenTag n a).flatMap (fun x => childrenTag x b)

/- ## `xml_utils.py` -/

/-- A Python dict with string keys and values, as an association list;
`lookup` returns the first binding. -/
def Dict := List (String × String)

/-- `key in item` combined with `item[key]`. -/
def dictGet (d : Dict) (key : String) : Option String :=
  match d with
  | [] => none
  | (k, v) :: rest => if k = key then some v else dictGet rest key

/-- Loop body state of `remove_duplicates_by_key`: `seen` is the set of
already-kept key values. -/
def removeDupGo (key : String) : List Dict → List String → List Dict
  | [], _ => []
  | it :: rest, seen =>
    match dictGet it key with
    | some v => if v ∈ seen then removeDupGo key rest seen
                else it :: removeDupGo key rest (v :: seen)
    | none => removeDupGo key rest seen

/-- `xml_utils.remove_duplicates_by_key`: order-preserving uniqueness filter;
items lacking the key are dropped, the first occurrence of each key value is
kept. -/
def remove_duplicates_by_key (items : List Dict) (key : String) : List Dict :=
  removeDupGo key items []

/-- Remove every `〈` and `〉` character (`replace('〈','').replace('〉','')`). -/
def removeAngles (s : String) : String :=
  ⟨s.data.filter (fun c => decide (c ≠ '〈' ∧ c ≠ '〉'))⟩

/-- Loop of `xml_utils.extract_condition_header` over the
`./Header/Lang[ja]` elements. -/
def condHeaderGo : List XmlNode → String
  | [] => ""
  | h :: rest =>
    let fullText := pstrip (itertext h)
    if fullText ≠ "" then
      if containsSub fullText "〈" && containsSub fullText "〉" then
        let condition := removeAngles fullText
        if condition ≠ "" ∧ 2 < (pstrip condition).length then pstrip condition
        else condHeaderGo rest
      else if 1 < fullText.length ∧ fullText.length < 200 then fullText
      else condHeaderGo rest
    else condHeaderGo rest

/-- `xml_utils.extract_condition_header`: the condition qualifier of an
Item-like node, from its direct `Header/Lang[ja]` children. -/
def extract_condition_header (element : XmlNode) : String :=
  condHeaderGo (childPathLang element "Header")

/-- The parent/current condition combination found in both parsers
(`_process_nested_items`): colon-join when both are non-empty, otherwise
whichever is non-empty. -/
def combineCondition (parent current : String) : String :=
  if parent ≠ "" ∧ current ≠ "" then parent ++ ":" ++ current
  else if parent ≠ "" then parent
  else if current ≠ "" then current
  else ""

/-- The dedup-append pattern used by both extractors: each candidate record
is appended only if its text is not already present
(`if not any(existing['text'] == ...): append`). -/
def appendUnique (acc : List String) (new : List String) : List String :=
  new.foldl (fun a r => if r ∈ a then a else a ++ [r]) acc

/-- Does `s` end with the pattern `p` (`str.endswith`)? -/
def endsWithChars (p s : List Char) : Bool :=
  startsWithChars p.reverse s.reverse

/- ## `dosage_parser.py` -/

namespace Dosage

/-- `_format_dosage_with_condition`: prefix the condition when it is a
non-blank string. -/
def format_dosage_with_condition (text cond : String) : String :=
  if cond ≠ "" ∧ pstrip cond ≠ "" then cond ++ ":" ++ text else text

/-- The records an Item emits for itself: one per non-blank direct
`Detail/Lang[ja]` text, rendered with the combined condition. -/
def detailRecords (item : XmlNode) (combined : String) : List String :=
  (childPathLang item "Detail").filterMap (fun d =>
    if d.text ≠ "" ∧ pstrip d.text ≠ "" then
      some (format_dosage_with_condition (pstrip d.text) combined)
    else none)

mutual
/-- `DosageParser._process_nested_items`: records of the direct
`Detail/Lang[ja]` children rendered with the combined condition, followed by
the records of the `./SimpleList/Item` grandchildren, which receive the
combined condition as their parent condition. -/
def process_nested_items : XmlNode → String → List String
  | .node t l x tl ch, parentCond =>
    let item : XmlNode := .node t l x tl ch
    let combined := combineCondition parentCond (extract_condition_header item)
    detailRecords item combined ++ nestedLists ch combined

def nestedLists : List XmlNode → String → List String
  | [], _ => []
  | c :: rest, cond =>
    (match c with
     | .node ct _ _ _ cch => if ct = "SimpleList" then nestedItems cch cond else [])
    ++ nestedLists rest cond

def nestedItems : List XmlNode → String → List String
  | [], _ => []
  | c :: rest, cond =>
    (if c.tag = "Item" then process_nested_items c cond else [])
    ++ nestedItems rest cond
end

/-- The closed alphabet of method-label letters (`[A-F]`). -/
def labelChars : List Char := ['A', 'B', 'C', 'D', 'E', 'F']

/-- The distinct letters `X` of the alphabet such that the label `X法：`
occurs in `s`; its length is `len(set(re.findall(r'([A-F]法)：', s)))`. -/
def distinctMethodLabels (s : String) : List Char :=
  labelChars.filter (fun c => containsChars [c, '法', '：'] s.data)

/-- Concatenation of all non-empty `.//Detail/Lang[ja]` texts under a node,
each followed by a space (`all_text += detail.text + " "`). -/
def concatDetailTexts (n : XmlNode) : String :=
  (descPathLang n "Detail").foldl
    (fun acc d => if d.text ≠ "" then acc ++ d.text ++ " " else acc) ""

/-- `DosageParser._has_complex_dosage_methods`: false on an empty file path;
otherwise the document is complex when the dosage section text holds at
least two distinct `A法：`–`F法：` labels or the section holds at least two
`TblBlock` elements. -/
def has_complex_dosage_methods (root : XmlNode) (file_path : String) : Bool :=
  if file_path = "" then false
  else
    match findFirstDesc root "InfoDoseAdmin" with
    | none => false
    | some info =>
      let allText := concatDetailTexts info
      let tblBlocks := findAllDesc info "TblBlock"
      decide (2 ≤ (distinctMethodLabels allText).length) ||
      decide (2 ≤ tblBlocks.length)

mutual
/-- `extract_text_recursive` inside `_extract_cell_content`: own text, then
each child (a `*Sup` child contributes its text, `"2"` becoming `"²"`, other
children recursively) followed by its tail. -/
def extract_text_recursive : XmlNode → String
  | .node _ _ x _ ch => x ++ cellChildren ch

def cellChildren : List XmlNode → String
  | [] => ""
  | c :: rest =>
    (match c with
     | .node ct _ cx _ _ =>
       if endsWithChars "Sup".data ct.data then (if cx = "2" then "²" else cx)
       else extract_text_recursive c)
    ++ c.tail ++ cellChildren rest
end

/-- `DosageParser._extract_cell_content`: concatenation of the recursive
text of every `.//Lang[ja]` descendant of the cell. -/
def extract_cell_content (cell : XmlNode) : String :=
  (descLangJa cell).foldl (fun acc l => acc ++ extract_text_recursive l) ""

/-- `DosageParser._parse_complex_dosage_table`: skip the header row; each
remaining row with at least two cells whose stripped contents are non-empty
yields `range:dose`. -/
def parse_complex_dosage_table (table : XmlNode) : List String :=
  let rows := findAllDesc table "SimpTblRow"
  (rows.drop 1).filterMap (fun row =>
    match childrenTag row "SimpTblCell" with
    | c0 :: c1 :: _ =>
      let bsa := extract_cell_content c0
      let dose := extract_cell_content c1
      if pstrip bsa ≠ "" ∧ pstrip dose ≠ "" then
        some (pstrip bsa ++ ":" ++ pstrip dose)
      else none
    | _ => none)

/-- `"X"` ↦ `"X法"`. -/
def mkLabel (c : Char) : String := ⟨[c, '法']⟩

/-- End-of-input step of the method scanner: a pending label with a
non-empty lazy detail is emitted (the `$` alternative of the lookahead). -/
def scanFlush : Option (Char × List Char) → List (String × String)
  | some (l, d) => if d.isEmpty then [] else [(mkLabel l, (⟨d.reverse⟩ : String))]
  | none => []

/-- Scanner for `re.findall(r'([A-F]法)：(.+?)(?=(?:[A-F]法：|$))', s, re.DOTALL)`.
`pending` is the currently open match: its label letter and the reversed
detail collected so far.  A label occurrence opens a match when none is
open; it terminates an open match whose detail is already non-empty (the
lazy `.+?` needs at least one character, so a label immediately after `：`
is swallowed into the detail instead). -/
def scanAux : List Char → Option (Char × List Char) → List (String × String)
  | c :: '法' :: '：' :: rest, pending =>
    if decide (c ∈ labelChars) then
      match pending with
      | none => scanAux rest (some (c, []))
      | some (l, d) =>
        if d.isEmpty then scanAux ('法' :: '：' :: rest) (some (l, c :: d))
        else (mkLabel l, (⟨d.reverse⟩ : String)) :: scanAux rest (some (c, []))
    else
      match pending with
      | none => scanAux ('法' :: '：' :: rest) none
      | some (l, d) => scanAux ('法' :: '：' :: rest) (some (l, c :: d))
  | c :: rest, pending =>
    match pending with
    | none => scanAux rest none
    | some (l, d) => scanAux rest (some (l, c :: d))
  | [], pending => scanFlush pending

/-- `(label, detail)` pairs of the method pattern in text order. -/
def scanMethods (s : String) : List (String × String) := scanAux s.data none

/-- The table-search loop of `_extract_complex_dosages`: walk the `TblBlock`
list with its index; at index `idx` decode the block's first `SimpleTable`
(continuing, per the code, when the block has none). -/
def methodTableGo (idx : Nat) : List XmlNode → Nat → List String
  | [], _ => []
  | tb :: rest, i =>
    if i = idx then
      match findFirstDesc tb "SimpleTable" with
      | some st => parse_complex_dosage_table st
      | none => methodTableGo idx rest (i + 1)
    else methodTableGo idx rest (i + 1)

/-- The `range:dose` entries paired with a method label: the table block at
index `ord(letter) - ord('A')` in document order. -/
def methodDosageByBsa (tblBlocks : List XmlNode) (name : String) : List String :=
  match name.data with
  | c :: _ =>
    if decide (c ∈ labelChars) then methodTableGo (c.toNat - 'A'.toNat) tblBlocks 0
    else []
  | [] => []

/-- One record of the complex path:
`label ":" schedule ("/体表面積" joined entries)?`. -/
def methodRecord (tblBlocks : List XmlNode) (m : String × String) : String :=
  let scheduleText := pstrip (splitEnterHead m.2)
  let dosageByBsa := methodDosageByBsa tblBlocks m.1
  if dosageByBsa ≠ [] then
    m.1 ++ ":" ++ scheduleText ++ "/体表面積" ++ joinSep "、" dosageByBsa
  else m.1 ++ ":" ++ scheduleText

/-- The leading premise record of the complex path: the part of the first
direct `Detail/Lang[ja]` text (stripped) before the first `<?enter?>`
marker, when non-empty. -/
def premiseRecords (doseAdmin : XmlNode) : List String :=
  match (childPathLang doseAdmin "Detail").head? with
  | some firstDetail =>
    if firstDetail.text ≠ "" then
      let premise := splitEnterHead (pstrip firstDetail.text)
      if premise ≠ "" then [premise] else []
    else []
  | none => []

/-- `DosageParser._extract_complex_dosages`.  When the `InfoDoseAdmin`
section holds no `DoseAdmin` element the Python code dereferences `None`
(`dose_admin.findall` at line 222) and raises `AttributeError`, modelled as
`Except.error`. -/
def extract_complex_dosages (root : XmlNode) : Except String (List String) :=
  match findFirstDesc root "InfoDoseAdmin" with
  | none => .ok []
  | some info =>
    match findFirstDesc info "DoseAdmin" with
    | none => .error "AttributeError"
    | some doseAdmin =>
      let allText := concatDetailTexts doseAdmin
      let tblBlocks := findAllDesc doseAdmin "TblBlock"
      .ok (premiseRecords doseAdmin ++
           (scanMethods allText).map (methodRecord tblBlocks))

/-- `DosageParser._extract_table_cell_text`: stripped `.//Lang[ja]` texts
joined by spaces, `<?enter?>` turned into a newline, then stripped. -/
def extract_table_cell_text (cell : XmlNode) : String :=
  let parts := (descLangJa cell).filterMap (fun l =>
    if l.text ≠ "" then some (pstrip l.text) else none)
  pstrip (replaceEnterWith "\n" (joinSep " " parts))

/-- Per-column dose entries of one data row of the generic dosage table:
cells after the first, each paired with its header (drug name) when the
column index is within the header list. -/
def dosageInfoEntries (headers : List String) (cells : List XmlNode) : List String :=
  (List.enumFrom 1 (cells.drop 1)).filterMap (fun p =>
    let cellText := extract_table_cell_text p.2
    if cellText ≠ "" ∧ pstrip cellText ≠ "－" ∧ pstrip cellText ≠ "" then
      match headers.get? p.1 with
      | some h => some (pstrip (replaceEnterWith "" h) ++ ":" ++ cellText)
      | none => some cellText
    else none)

/-- `DosageParser._parse_dosage_table`: generic procedure-keyed dosage
table; one record per data row with a non-blank first cell and at least one
usable dose entry. -/
def parse_dosage_table (tblBlock : XmlNode) : List String :=
  match findFirstDesc tblBlock "SimpleTable" with
  | none => []
  | some st =>
    match findAllDesc st "SimpTblRow" with
    | [] => []
    | headerRow :: dataRows =>
      let headers := (childrenTag headerRow "SimpTblCell").filterMap (fun c =>
        let t := extract_table_cell_text c
        if t ≠ "" then some t else none)
      dataRows.filterMap (fun row =>
        match childrenTag row "SimpTblCell" with
        | [] => none
        | pc :: restCells =>
          let procedureName := extract_table_cell_text pc
          if procedureName = "" ∨ pstrip procedureName = "" then none
          else
            let info := dosageInfoEntries headers (pc :: restCells)
            if info ≠ [] then
              some (procedureName ++ " → " ++ joinSep " / " info)
            else none)

/-- Base explanation records of the table branch of the standard path
(direct `Detail/Lang[ja]` texts, stripped). -/
def baseDetailRecs (da : XmlNode) : List String :=
  (childPathLang da "Detail").filterMap (fun d =>
    if d.text ≠ "" ∧ pstrip d.text ≠ "" then some (pstrip d.text) else none)

/-- `注意:`-prefixed records from `.//Comment/Lang[ja]` texts. -/
def commentRecs (da : XmlNode) : List String :=
  (descPathLang da "Comment").filterMap (fun c =>
    if c.text ≠ "" ∧ pstrip c.text ≠ "" then some ("注意: " ++ pstrip c.text)
    else none)

/-- Fallback records of the itemless branch: every `.//Detail/Lang[ja]`
text rendered with the `DoseAdmin`-level condition header. -/
def detailFallbackRecs (da : XmlNode) : List String :=
  let cond := extract_condition_header da
  (descPathLang da "Detail").filterMap (fun d =>
    if d.text ≠ "" ∧ pstrip d.text ≠ "" then
      some (format_dosage_with_condition (pstrip d.text) cond)
    else none)

/-- Document-wide fallback scan: every element whose text mentions the
literal dosage label. -/
def scanFallbackRecs (root : XmlNode) : List String :=
  (subtreeList root).filterMap (fun e =>
    if e.text ≠ "" ∧ containsSub e.text "用法・用量" then
      some (format_dosage_with_condition (pstrip e.text) "")
    else none)

/-- Candidate records contributed by one `DoseAdmin` node on the standard
path: the table branch when it holds `TblBlock` elements, otherwise the
nested item walk (with the `.//Detail` fallback when there are no items). -/
def doseAdminCandidates (da : XmlNode) : List String :=
  let tblBlocks := findAllDesc da "TblBlock"
  if !tblBlocks.isEmpty then
    baseDetailRecs da ++ tblBlocks.flatMap parse_dosage_table ++ commentRecs da
  else
    let items := childPath2 da "SimpleList" "Item"
    items.flatMap (fun it => process_nested_items it "") ++
    (if items.isEmpty then detailFallbackRecs da else [])

/-- All candidate records of the standard path, in append order. -/
def dosageCandidates (root : XmlNode) : List String :=
  ((findAllDesc root "InfoDoseAdmin").flatMap (fun info =>
    (findAllDesc info "DoseAdmin").flatMap doseAdminCandidates))
  ++ scanFallbackRecs root

/-- The standard (item-walk) path of `DosageParser.extract_dosages`: every
append in the Python code is guarded by the duplicate-text check, so the
result is the deduplicated candidate sequence. -/
def extract_standard_dosages (root : XmlNode) : List String :=
  appendUnique [] (dosageCandidates root)

/-- `DosageParser.extract_dosages`: complex-structure dispatch. -/
def extract_dosages (root : XmlNode) (file_path : String) :
    Except String (List String) :=
  if has_complex_dosage_methods root file_path then extract_complex_dosages root
  else .ok (extract_standard_dosages root)

/-- Module-level `parse_dosages`: the `try/except` boundary converts both a
load failure and an extractor failure into an empty list. -/
def parse_dosages (load : String → Except String XmlNode)
    (file_path : String) : List String :=
  match load file_path with
  | .error _ => []
  | .ok root =>
    match extract_dosages root file_path with
    | .error _ => []
    | .ok l => l

end Dosage

/- ## `side_effect_parser.py` -/

namespace SideEffect

/-- `SideEffectParser._format_side_effect_with_condition`: severity first,
then condition, then text. -/
def format_side_effect_with_condition (text cond severity : String) : String :=
  if severity ≠ "" then
    if cond ≠ "" ∧ pstrip cond ≠ "" then severity ++ ":" ++ cond ++ ":" ++ text
    else severity ++ ":" ++ text
  else if cond ≠ "" ∧ pstrip cond ≠ "" then cond ++ ":" ++ text
  else text

/-- `SideEffectParser._extract_side_effect_name_and_description`. -/
def extract_side_effect_name_and_description (headerText detailText : String) :
    String × String :=
  if headerText ≠ "" ∧ detailText ≠ "" then (pstrip headerText, pstrip detailText)
  else if headerText ≠ "" ∧ detailText = "" then (pstrip headerText, "")
  else if headerText = "" ∧ detailText ≠ "" then ("", pstrip detailText)
  else ("", "")

/-- The header name of an Item: the stripped `itertext` of its first
`./Header/Lang[ja]` child, or the empty string. -/
def headerTextOf (item : XmlNode) : String :=
  match childPathLang item "Header" with
  | [] => ""
  | h :: _ => pstrip (itertext h)

/-- The record rendered for one non-empty `Detail` text of an Item
(`_process_nested_items`, lines 136-158): under a serious section a
header-derived name and detail-derived description are rendered as
`重篤:name:description` (or `重篤:name`), dropping the condition context;
otherwise the usual severity/condition rendering applies. -/
def renderDetail (severity headerText combined detailText : String) : String :=
  let nd := extract_side_effect_name_and_description headerText detailText
  if severity = "重篤" ∧ nd.1 ≠ "" ∧ nd.2 ≠ "" then "重篤:" ++ nd.1 ++ ":" ++ nd.2
  else if severity = "重篤" ∧ nd.1 ≠ "" then "重篤:" ++ nd.1
  else if headerText ≠ "" ∧ detailText ≠ "" then
    format_side_effect_with_condition (headerText ++ ":" ++ detailText) combined severity
  else format_side_effect_with_condition detailText combined severity

/-- The records an Item emits for itself (before recursing): one per
non-blank direct `Detail/Lang[ja]` text, plus the header-only record when
the Item has a header and no direct `Detail/Lang[ja]` element at all. -/
def ownRecords (item : XmlNode) (combined severity : String) : List String :=
  let headerText := headerTextOf item
  let detailNodes := childPathLang item "Detail"
  detailNodes.filterMap (fun d =>
    if d.text ≠ "" ∧ pstrip d.text ≠ "" then
      some (renderDetail severity headerText combined (pstrip d.text))
    else none)
  ++ (if headerText ≠ "" ∧ detailNodes.isEmpty then
        [if severity = "重篤" then "重篤:" ++ headerText
         else format_side_effect_with_condition headerText combined severity]
      else [])

mutual
/-- `SideEffectParser._process_nested_items`: own records, then the records
of the `./SimpleList/Item` grandchildren, which receive the combined
condition as parent condition and the same severity. -/
def process_nested_items : XmlNode → String → String → List String
  | .node t l x tl ch, parentCond, severity =>
    let item : XmlNode := .node t l x tl ch
    let combined := combineCondition parentCond (extract_condition_header item)
    ownRecords item combined severity ++ nestedLists ch combined severity

def nestedLists : List XmlNode → String → String → List String
  | [], _, _ => []
  | c :: rest, cond, severity =>
    (match c with
     | .node ct _ _ _ cch =>
       if ct = "SimpleList" then nestedItems cch cond severity else [])
    ++ nestedLists rest cond severity

def nestedItems : List XmlNode → String → String → List String
  | [], _, _ => []
  | c :: rest, cond, severity =>
    (if c.tag = "Item" then process_nested_items c cond severity else [])
    ++ nestedItems rest cond severity
end

/-- Candidate records of one `SeriousAdverseEvents` section: every
descendant `Item` walked with severity `重篤`. -/
def seriousCandidates (sa : XmlNode) : List String :=
  (findAllDesc sa "Item").flatMap (fun item => process_nested_items item "" "重篤")

/-- Candidate records of the `Instructions`/`AdverseReactionDescription`
branch of an `OtherAdverseEvents` section. -/
def reactionCandidates (oa : XmlNode) : List String :=
  ((findAllDesc oa "Instructions").flatMap (fun ins =>
    childPath2 ins "SimpleList" "Item")).flatMap (fun instructionItem =>
      let cond := extract_condition_header instructionItem
      (findAllDesc oa "AdverseReactionDescription").flatMap (fun reaction =>
        (childPathLang reaction "Detail").filterMap (fun d =>
          if d.text ≠ "" ∧ pstrip d.text ≠ "" then
            some (format_side_effect_with_condition (pstrip d.text) cond "非重篤")
          else none)))

/-- Candidate records of the `.//OtherAdverse//Item` branch of an
`OtherAdverseEvents` section, walked with severity `非重篤`. -/
def otherItemCandidates (oa : XmlNode) : List String :=
  ((findAllDesc oa "OtherAdverse").flatMap (fun o =>
    findAllDesc o "Item")).flatMap (fun item =>
      process_nested_items item "" "非重篤")

/-- All candidate records of `extract_side_effects`, in append order. -/
def seCandidates (root : XmlNode) : List String :=
  (findAllDesc root "AdverseEvents").flatMap (fun ae =>
    (findAllDesc ae "SeriousAdverseEvents").flatMap seriousCandidates
    ++ (findAllDesc ae "OtherAdverseEvents").flatMap (fun oa =>
         reactionCandidates oa ++ otherItemCandidates oa))

/-- `SideEffectParser.extract_side_effects`: every append in the Python
code is guarded by the duplicate-text check. -/
def extract_side_effects (root : XmlNode) : List String :=
  appendUnique [] (seCandidates root)

/-- Module-level `parse_side_effects`: the `try/except` boundary converts a
load failure into an empty list; the extractor itself is total. -/
def parse_side_effects (load : String → Except String XmlNode)
    (file_path : String) : List String :=
  match load file_path with
  | .error _ => []
  | .ok root => extract_side_effects root

end SideEffect

/- ## Predicates and derived quantities used by the stated properties -/

/-- The first character, if any, is not whitespace (vacuously true for the
empty string). -/
def headNotWS (s : String) : Bool :=
  match s.data.head? with
  | none => true
  | some c => !isWS c

/-- The last character, if any, is not whitespace. -/
def lastNotWS (s : String) : Bool :=
  match s.data.getLast? with
  | none => true
  | some c => !isWS c

/-- A well-formed record text: non-empty and trimmed on both sides. -/
def recOK (s : String) : Prop :=
  s ≠ "" ∧ headNotWS s = true ∧ lastNotWS s = true

/-- The number of distinct `A法：`–`F法：` labels in the concatenated
Japanese detail text of the document's dosage section (`InfoDoseAdmin`);
zero when the document has no dosage section. -/
def distinctLabelCountDoc (root : XmlNode) : Nat :=
  match findFirstDesc root "InfoDoseAdmin" with
  | none => 0
  | some info => (Dosage.distinctMethodLabels (Dosage.concatDetailTexts info)).length

/-- The number of `TblBlock` elements in the document's dosage section;
zero when the document has no dosage section. -/
def tblBlockCountDoc (root : XmlNode) : Nat :=
  match findFirstDesc root "InfoDoseAdmin" with
  | none => 0
  | some info => (findAllDesc info "TblBlock").length

/-- `r` is the leading premise record of the complex dosage path of
`root`. -/
def isComplexPremise (root : XmlNode) (r : String) : Prop :=
  ∃ info da, findFirstDesc root "InfoDoseAdmin" = some info ∧
    findFirstDesc info "DoseAdmin" = some da ∧
    r ∈ Dosage.premiseRecords da

/- ## Concrete documents used as witnesses and counterexamples -/

/-- A Japanese `Lang` leaf. -/
def langJa (s : String) : XmlNode := .node "Lang" "ja" s "" []

/-- An element with neither text nor attributes. -/
def el (tag : String) (ch : List XmlNode) : XmlNode := .node tag "" "" "" ch

/-- A table cell holding one Japanese text. -/
def cellOf (s : String) : XmlNode := el "SimpTblCell" [langJa s]

/-- A one-data-row body-surface-area table block with a header row. -/
def tblOf (r d : String) : XmlNode :=
  el "TblBlock" [el "SimpleTable"
    [el "SimpTblRow" [cellOf "範囲", cellOf "用量"],
     el "SimpTblRow" [cellOf r, cellOf d]]]

/-- A dosage section holding one method label and no tables. -/
def docOneLabel : XmlNode :=
  el "PackIns" [el "InfoDoseAdmin" [el "DoseAdmin"
    [el "Detail" [langJa "A法：1日1回"]]]]

/-- A dosage section holding two distinct method labels and no tables. -/
def docTwoLabels : XmlNode :=
  el "PackIns" [el "InfoDoseAdmin" [el "DoseAdmin"
    [el "Detail" [langJa "A法：1日1回<?enter?>B法：1日2回"]]]]

/-- A `DoseAdmin` whose text holds the labels `B法：` and `C法：` (no `A法：`)
and which holds two table blocks decoding to `r0:d0` and `r1:d1`. -/
def daBC : XmlNode :=
  el "DoseAdmin"
    [el "Detail" [langJa "B法：x<?enter?>C法：y"],
     tblOf "r0" "d0", tblOf "r1" "d1"]

/-- Document around `daBC`. -/
def docBC : XmlNode := el "PackIns" [el "InfoDoseAdmin" [daBC]]

/-- A complex-classified document whose premise text carries a space ahead
of the first `<?enter?>` marker. -/
def docPremiseWS : XmlNode :=
  el "PackIns" [el "InfoDoseAdmin" [el "DoseAdmin"
    [el "Detail" [langJa "1日2回 <?enter?>A法：x B法：y"]]]]

/-- A dosage section holding two table blocks but no `DoseAdmin` element:
classified complex, after which the complex path dereferences the missing
`DoseAdmin`. -/
def docNoDoseAdmin : XmlNode :=
  el "PackIns" [el "InfoDoseAdmin" [el "TblBlock" [], el "TblBlock" []]]

/-- The serious-adverse-event Item of the spec's scenario. -/
def itemShock : XmlNode :=
  el "Item" [el "Header" [langJa "ショック"],
             el "Detail" [langJa "呼吸困難等が現れることがある"]]

/-- A serious-adverse-event Item with a header and no detail. -/
def itemHeaderOnly : XmlNode := el "Item" [el "Header" [langJa "ショック"]]

/-- A document holding one serious adverse event. -/
def docSE : XmlNode :=
  el "PackIns" [el "AdverseEvents" [el "SeriousAdverseEvents"
    [el "SimpleList" [itemShock]]]]

/-- An Item whose header is a bracketed qualifier. -/
def itemBracket : XmlNode := el "Item" [el "Header" [langJa "〈高血圧症〉"]]

/-- An Item whose header is a plain short text. -/
def itemPlain : XmlNode := el "Item" [el "Header" [langJa "投与時"]]

/-- An Item whose bracketed header content is too short to be kept. -/
def itemShortBracket : XmlNode := el "Item" [el "Header" [langJa "〈あ〉"]]

/- ## Helper lemmas: strings and whitespace -/

theorem data_append (s t : String) : (s ++ t).data = s.data ++ t.data := rfl

theorem string_ext {s t : String} (h : s.data = t.data) : s = t := by
  cases s with
  | mk a => cases t with
    | mk b => exact congrArg String.mk h

theorem string_eq_empty_iff (s : String) : s = "" ↔ s.data = [] := by
  constructor
  · intro h; rw [h]
  · intro h; exact string_ext h

theorem append_empty_str (s : String) : s ++ "" = s :=
  string_ext (by rw [data_append]; exact List.append_nil _)

theorem append_ne_left {s : String} (t : String) (h : s ≠ "") : s ++ t ≠ "" := by
  intro e
  rw [string_eq_empty_iff, data_append, List.append_eq_nil] at e
  exact h ((string_eq_empty_iff s).mpr e.1)

theorem append_ne_right (s : String) {t : String} (h : t ≠ "") : s ++ t ≠ "" := by
  intro e
  rw [string_eq_empty_iff, data_append, List.append_eq_nil] at e
  exact h ((string_eq_empty_iff t).mpr e.2)

theorem head_dropWhile_not (p : Char → Bool) :
    ∀ (l : List Char) (c : Char), (l.dropWhile p).head? = some c → p c = false := by
  intro l
  induction l with
  | nil => intro c h; simp [List.dropWhile] at h
  | cons a as ih =>
    intro c h
    rw [List.dropWhile_cons] at h
    by_cases hp : p a = true
    · rw [if_pos hp] at h; exact ih c h
    · rw [if_neg hp] at h
      simp only [List.head?_cons, Option.some.injEq] at h
      subst h
      exact Bool.not_eq_true _ ▸ (by simpa using hp)

theorem last_of_getLast?_some {α : Type} {l : List α} {c : α}
    (h : l.getLast? = some c) : l ≠ [] := by
  intro e; subst e; simp at h

theorem head_stripChars (l : List Char) (c : Char)
    (h : (stripChars l).head? = some c) : isWS c = false := by
  unfold stripChars at h
  rw [List.head?_reverse] at h
  obtain ⟨a, ha⟩ := List.dropWhile_suffix (l := (l.dropWhile isWS).reverse) isWS
  have hd : ((l.dropWhile isWS).reverse.dropWhile isWS) ≠ [] := last_of_getLast?_some h
  have : ((l.dropWhile isWS).reverse).getLast? = some c := by
    rw [← ha, List.getLast?_append_of_ne_nil _ hd]; exact h
  rw [List.getLast?_reverse] at this
  exact head_dropWhile_not isWS l c this

theorem last_stripChars (l : List Char) (c : Char)
    (h : (stripChars l).getLast? = some c) : isWS c = false := by
  unfold stripChars at h
  rw [List.getLast?_reverse] at h
  exact head_dropWhile_not isWS _ c h

theorem headNotWS_pstrip (s : String) : headNotWS (pstrip s) = true := by
  unfold headNotWS
  cases h : (pstrip s).data.head? with
  | none => rfl
  | some c =>
    have : isWS c = false := head_stripChars s.data c h
    simp [this]

theorem lastNotWS_pstrip (s : String) : lastNotWS (pstrip s) = true := by
  unfold lastNotWS
  cases h : (pstrip s).data.getLast? with
  | none => rfl
  | some c =>
    have : isWS c = false := last_stripChars s.data c h
    simp [this]

theorem headNotWS_empty : headNotWS "" = true := rfl

theorem lastNotWS_empty : lastNotWS "" = true := rfl

theorem headNotWS_append {s : String} (t : String) (hne : s ≠ "")
    (h : headNotWS s = true) : headNotWS (s ++ t) = true := by
  unfold headNotWS at h ⊢
  rw [data_append, List.head?_append_of_ne_nil _ (fun e => hne ((string_eq_empty_iff s).mpr e))]
  exact h

theorem lastNotWS_append (s : String) {t : String} (hne : t ≠ "")
    (h : lastNotWS t = true) : lastNotWS (s ++ t) = true := by
  unfold lastNotWS at h ⊢
  rw [data_append, List.getLast?_append_of_ne_nil _ (fun e => hne ((string_eq_empty_iff t).mpr e))]
  exact h

theorem dropWhile_eq_self_of_head (p : Char → Bool) (l : List Char)
    (h : ∀ c, l.head? = some c → p c = false) : l.dropWhile p = l := by
  cases l with
  | nil => rfl
  | cons a as =>
    rw [List.dropWhile_cons, if_neg]
    simp [h a rfl]

theorem stripChars_idem (l : List Char) : stripChars (stripChars l) = stripChars l := by
  have h1 : (stripChars l).dropWhile isWS = stripChars l :=
    dropWhile_eq_self_of_head _ _ (fun c hc => head_stripChars l c hc)
  have h2 : ((stripChars l).reverse).dropWhile isWS = (stripChars l).reverse := by
    apply dropWhile_eq_self_of_head
    intro c hc
    rw [List.head?_reverse] at hc
    exact last_stripChars l c hc
  show (((stripChars l).dropWhile isWS).reverse.dropWhile isWS).reverse = stripChars l
  rw [h1, h2, List.reverse_reverse]

theorem pstrip_idem (s : String) : pstrip (pstrip s) = pstrip s :=
  congrArg String.mk (stripChars_idem s.data)

theorem mem_appendUnique {r : String} :
    ∀ (new acc : List String), r ∈ appendUnique acc new → r ∈ acc ∨ r ∈ new := by
  intro new
  induction new with
  | nil => intro acc h; exact .inl h
  | cons x xs ih =>
    intro acc h
    have h' : r ∈ appendUnique (if x ∈ acc then acc else acc ++ [x]) xs := h
    rcases ih _ h' with hmem | hmem
    · by_cases hx : x ∈ acc
      · rw [if_pos hx] at hmem; exact .inl hmem
      · rw [if_neg hx] at hmem
        rcases List.mem_append.mp hmem with h1 | h1
        · exact .inl h1
        · simp only [List.mem_singleton] at h1
          subst h1
          exact .inr (List.mem_cons_self _ _)
    · exact .inr (List.mem_cons_of_mem _ hmem)

/- ## Helper lemmas: deduplication -/

theorem removeDupGo_idem (key : String) :
    ∀ (items : List Dict) (seen : List String),
      removeDupGo key (removeDupGo key items seen) seen = removeDupGo key items seen := by
  intro items
  induction items with
  | nil => intro seen; rfl
  | cons it rest ih =>
    intro seen
    cases h : dictGet it key with
    | none =>
      simp only [removeDupGo, h]
      exact ih seen
    | some v =>
      by_cases hv : v ∈ seen
      · simp only [removeDupGo, h, if_pos hv]
        exact ih seen
      · simp only [removeDupGo, h, if_neg hv]
        rw [ih (v :: seen)]

/- ## Helper lemmas: the nested item walks as flat maps -/

theorem filter_flatMap {α β : Type} (l : List α) (p : α → Bool) (f : α → List β) :
    (l.filter p).flatMap f = l.flatMap (fun c => if p c then f c else []) := by
  induction l with
  | nil => rfl
  | cons a as ih =>
    by_cases h : p a = true
    · simp [List.filter_cons, h, ih]
    · simp [List.filter_cons, h, ih]

theorem dosage_nestedItems_eq (l : List XmlNode) (cond : String) :
    Dosage.nestedItems l cond =
      l.flatMap (fun c =>
        if c.tag = "Item" then Dosage.process_nested_items c cond else []) := by
  induction l with
  | nil => rfl
  | cons c rest ih =>
    simp only [Dosage.nestedItems, List.flatMap_cons, ih]

theorem dosage_nestedLists_eq (l : List XmlNode) (cond : String) :
    Dosage.nestedLists l cond =
      l.flatMap (fun c =>
        if c.tag = "SimpleList" then Dosage.nestedItems c.children cond else []) := by
  induction l with
  | nil => rfl
  | cons c rest ih =>
    cases c with
    | node t lg x tl ch =>
      simp only [Dosage.nestedLists, List.flatMap_cons, ih]
      rfl

theorem dosage_process_eq (item : XmlNode) (p : String) :
    Dosage.process_nested_items item p =
      Dosage.detailRecords item (combineCondition p (extract_condition_header item)) ++
      Dosage.nestedLists item.children
        (combineCondition p (extract_condition_header item)) := by
  cases item with
  | node t l x tl ch => rfl

theorem dosage_process_flatMap (item : XmlNode) (p : String) :
    Dosage.process_nested_items item p =
      Dosage.detailRecords item (combineCondition p (extract_condition_header item)) ++
      (childPath2 item "SimpleList" "Item").flatMap
        (fun c =>
          Dosage.process_nested_items c
            (combineCondition p (extract_condition_header item))) := by
  rw [dosage_process_eq]
  congr 1
  rw [dosage_nestedLists_eq]
  unfold childPath2 childrenTag
  rw [filter_flatMap, List.flatMap_assoc]
  apply List.flatMap_congr
  intro c _
  by_cases hc : c.tag = "SimpleList"
  · simp [hasTag, hc, dosage_nestedItems_eq, filter_flatMap]
  · simp [hasTag, hc]

theorem se_nestedItems_eq (l : List XmlNode) (cond severity : String) :
    SideEffect.nestedItems l cond severity =
      l.flatMap (fun c =>
        if c.tag = "Item" then SideEffect.process_nested_items c cond severity
        else []) := by
  induction l with
  | nil => rfl
  | cons c rest ih =>
    simp only [SideEffect.nestedItems, List.flatMap_cons, ih]

theorem se_nestedLists_eq (l : List XmlNode) (cond severity : String) :
    SideEffect.nestedLists l cond severity =
      l.flatMap (fun c =>
        if c.tag = "SimpleList" then SideEffect.nestedItems c.children cond severity
        else []) := by
  induction l with
  | nil => rfl
  | cons c rest ih =>
    cases c with
    | node t lg x tl ch =>
      simp only [SideEffect.nestedLists, List.flatMap_cons, ih]
      rfl

theorem se_process_eq (item : XmlNode) (p severity : String) :
    SideEffect.process_nested_items item p severity =
      SideEffect.ownRecords item (combineCondition p (extract_condition_header item))
        severity ++
      SideEffect.nestedLists item.children
        (combineCondition p (extract_condition_header item)) severity := by
  cases item with
  | node t l x tl ch => rfl

theorem se_process_flatMap (item : XmlNode) (p severity : String) :
    SideEffect.process_nested_items item p severity =
      SideEffect.ownRecords item (combineCondition p (extract_condition_header item))
        severity ++
      (childPath2 item "SimpleList" "Item").flatMap
        (fun c =>
          SideEffect.process_nested_items c
            (combineCondition p (extract_condition_header item)) severity) := by
  rw [se_process_eq]
  congr 1
  rw [se_nestedLists_eq]
  unfold childPath2 childrenTag
  rw [filter_flatMap, List.flatMap_assoc]
  apply List.flatMap_congr
  intro c _
  by_cases hc : c.tag = "SimpleList"
  · simp [hasTag, hc, se_nestedItems_eq, filter_flatMap]
  · simp [hasTag, hc]

/- ## Helper lemmas: well-formedness of rendered pieces -/

theorem condHeaderGo_ws (l : List XmlNode) :
    headNotWS (condHeaderGo l) = true ∧ lastNotWS (condHeaderGo l) = true := by
  induction l with
  | nil => exact ⟨rfl, rfl⟩
  | cons h rest ih =>
    simp only [condHeaderGo]
    split
    · split
      · split
        · exact ⟨headNotWS_pstrip _, lastNotWS_pstrip _⟩
        · exact ih
      · split
        · exact ⟨headNotWS_pstrip _, lastNotWS_pstrip _⟩
        · exact ih
    · exact ih

theorem condHeader_ws (e : XmlNode) :
    headNotWS (extract_condition_header e) = true ∧
    lastNotWS (extract_condition_header e) = true :=
  condHeaderGo_ws _

theorem combine_headNotWS {p c : String} (hp : headNotWS p = true)
    (hc : headNotWS c = true) : headNotWS (combineCondition p c) = true := by
  unfold combineCondition
  split
  case isTrue h =>
    exact headNotWS_append _ (append_ne_left _ h.1) (headNotWS_append _ h.1 hp)
  case isFalse h =>
    split
    case isTrue h2 => exact hp
    case isFalse h2 =>
      split
      case isTrue h3 => exact hc
      case isFalse h3 => exact headNotWS_empty

theorem recOK_pstrip {s : String} (h : pstrip s ≠ "") : recOK (pstrip s) :=
  ⟨h, headNotWS_pstrip s, lastNotWS_pstrip s⟩

theorem recOK_sep_append {a sep b : String} (ha : headNotWS a = true)
    (hsep : sep ≠ "") (hsh : headNotWS sep = true) (hsl : lastNotWS sep = true)
    (hb : lastNotWS b = true) : recOK (a ++ sep ++ b) := by
  have hes : ("" : String) ++ sep = sep := rfl
  by_cases hae : a = ""
  · subst hae
    rw [hes]
    by_cases hbe : b = ""
    · subst hbe
      rw [append_empty_str]
      exact ⟨hsep, hsh, hsl⟩
    · exact ⟨append_ne_right _ hbe, headNotWS_append _ hsep hsh,
        lastNotWS_append _ hbe hb⟩
  · by_cases hbe : b = ""
    · subst hbe
      rw [append_empty_str]
      refine ⟨append_ne_left _ hae, headNotWS_append _ hae ha,
        lastNotWS_append _ hsep hsl⟩
    · refine ⟨append_ne_right _ hbe, ?_, lastNotWS_append _ hbe hb⟩
      exact headNotWS_append _ (append_ne_left _ hae) (headNotWS_append _ hae ha)

theorem colon_ne : (":" : String) ≠ "" := by decide

theorem colon_head : headNotWS ":" = true := by decide

theorem colon_last : lastNotWS ":" = true := by decide

theorem recOK_colon {a b : String} (ha : headNotWS a = true)
    (hb : lastNotWS b = true) : recOK (a ++ ":" ++ b) :=
  recOK_sep_append ha colon_ne colon_head colon_last hb

theorem format_dosage_ok {text cond : String} (hcond : headNotWS cond = true)
    (ht : text ≠ "") (hh : headNotWS text = true) (hl : lastNotWS text = true) :
    recOK (Dosage.format_dosage_with_condition text cond) := by
  unfold Dosage.format_dosage_with_condition
  split
  case isTrue h => exact recOK_colon hcond hl
  case isFalse h => exact ⟨ht, hh, hl⟩

theorem recOK_pstrip_of_ne {s : String} (h : pstrip s ≠ "") :
    pstrip s ≠ "" ∧ headNotWS (pstrip s) = true ∧ lastNotWS (pstrip s) = true :=
  recOK_pstrip h

theorem format_dosage_of_pstrip {s cond : String} (hcond : headNotWS cond = true)
    (h : pstrip s ≠ "") :
    recOK (Dosage.format_dosage_with_condition (pstrip s) cond) :=
  format_dosage_ok hcond h (headNotWS_pstrip s) (lastNotWS_pstrip s)

/- ## Helper: the complex-structure classifier as a predicate -/

theorem has_complex_iff (root : XmlNode) (fp : String) (h : fp ≠ "") :
    Dosage.has_complex_dosage_methods root fp = true ↔
      2 ≤ distinctLabelCountDoc root ∨ 2 ≤ tblBlockCountDoc root := by
  unfold Dosage.has_complex_dosage_methods distinctLabelCountDoc tblBlockCountDoc
  rw [if_neg h]
  cases hf : findFirstDesc root "InfoDoseAdmin" with
  | none => simp
  | some info => simp

/- ## The claims -/

/-- C1: for every document processed with a (non-empty) file path, the
dosage extractor classifies the document as complex — and takes the
complex-structure extraction path instead of the standard item-walk path —
exactly when the concatenated Japanese detail text under `InfoDoseAdmin`
holds two or more distinct `A法：`–`F法：` labels, or the dosage section
holds two or more `TblBlock` elements. -/
theorem claim_c1 (root : XmlNode) (fp : String) (h : fp ≠ "") :
    (Dosage.has_complex_dosage_methods root fp = true ↔
      2 ≤ distinctLabelCountDoc root ∨ 2 ≤ tblBlockCountDoc root)
    ∧ (Dosage.has_complex_dosage_methods root fp = true →
        Dosage.extract_dosages root fp = Dosage.extract_complex_dosages root)
    ∧ (Dosage.has_complex_dosage_methods root fp = false →
        Dosage.extract_dosages root fp =
          Except.ok (Dosage.extract_standard_dosages root)) := by
  refine ⟨has_complex_iff root fp h, ?_, ?_⟩
  · intro hc; simp [Dosage.extract_dosages, hc]
  · intro hc; simp [Dosage.extract_dosages, hc]

/-- Witness for C1: a document whose dosage text holds the two labels
`A法：` and `B法：` is classified complex and routed to the complex path. -/
theorem claim_c1_witness :
    Dosage.has_complex_dosage_methods docTwoLabels "file.xml" = true
    ∧ Dosage.extract_dosages docTwoLabels "file.xml" =
        Dosage.extract_complex_dosages docTwoLabels := by
  have h := claim_c1 docTwoLabels "file.xml" (by decide)
  have hc : Dosage.has_complex_dosage_methods docTwoLabels "file.xml" = true :=
    h.1.mpr (Or.inl (by decide))
  exact ⟨hc, h.2.1 hc⟩

/-- C3: the condition-context combination joins two non-empty contexts with
a colon, returns the non-empty one when only one is non-empty, and the
empty string otherwise; and in both parsers the combined value is the
parent condition passed to every nested `./SimpleList/Item` child. -/
theorem claim_c3 :
    (∀ p c : String,
      (p ≠ "" → c ≠ "" → combineCondition p c = p ++ ":" ++ c)
      ∧ (p ≠ "" → c = "" → combineCondition p c = p)
      ∧ (p = "" → c ≠ "" → combineCondition p c = c)
      ∧ (p = "" → c = "" → combineCondition p c = ""))
    ∧ (∀ (item : XmlNode) (p : String),
        Dosage.process_nested_items item p =
          Dosage.detailRecords item
            (combineCondition p (extract_condition_header item)) ++
          (childPath2 item "SimpleList" "Item").flatMap (fun child =>
            Dosage.process_nested_items child
              (combineCondition p (extract_condition_header item))))
    ∧ (∀ (item : XmlNode) (p severity : String),
        SideEffect.process_nested_items item p severity =
          SideEffect.ownRecords item
            (combineCondition p (extract_condition_header item)) severity ++
          (childPath2 item "SimpleList" "Item").flatMap (fun child =>
            SideEffect.process_nested_items child
              (combineCondition p (extract_condition_header item)) severity)) := by
  refine ⟨?_, dosage_process_flatMap, se_process_flatMap⟩
  intro p c
  refine ⟨fun hp hc => ?_, fun hp hc => ?_, fun hp hc => ?_, fun hp hc => ?_⟩ <;>
    unfold combineCondition
  · rw [if_pos ⟨hp, hc⟩]
  · rw [if_neg (fun hh => hh.2 hc), if_pos hp]
  · rw [if_neg (fun hh => hh.1 hp), if_neg (fun hh => hh hp), if_pos hc]
  · rw [if_neg (fun hh => hh.1 hp), if_neg (fun hh => hh hp),
      if_neg (fun hh => hh hc)]

/-- Witness for C3 at concrete contexts and a concrete Item. -/
theorem claim_c3_witness :
    combineCondition "疾患A" "対象B" = "疾患A:対象B"
    ∧ combineCondition "疾患A" "" = "疾患A"
    ∧ combineCondition "" "対象B" = "対象B"
    ∧ combineCondition "" "" = ""
    ∧ Dosage.process_nested_items itemShock "疾患A" =
        Dosage.detailRecords itemShock
          (combineCondition "疾患A" (extract_condition_header itemShock)) ++
        (childPath2 itemShock "SimpleList" "Item").flatMap (fun child =>
          Dosage.process_nested_items child
            (combineCondition "疾患A" (extract_condition_header itemShock))) := by
  have h := claim_c3
  exact ⟨(h.1 "疾患A" "対象B").1 (by decide) (by decide),
         (h.1 "疾患A" "").2.1 (by decide) rfl,
         (h.1 "" "対象B").2.2.1 rfl (by decide),
         (h.1 "" "").2.2.2 rfl rfl,
         h.2.1 itemShock "疾患A"⟩

/-- C9: the order-preserving duplicate-removal function is idempotent: for
every record list and key, applying it twice equals applying it once. -/
theorem claim_c9 (items : List Dict) (key : String) :
    remove_duplicates_by_key (remove_duplicates_by_key items key) key =
      remove_duplicates_by_key items key :=
  removeDupGo_idem key items []

/-- C10: with an empty file path (the constructor default), complex
detection returns false for every document, so `extract_dosages` always
takes the standard item-walk path. -/
theorem claim_c10 (root : XmlNode) :
    Dosage.has_complex_dosage_methods root "" = false
    ∧ Dosage.extract_dosages root "" =
        Except.ok (Dosage.extract_standard_dosages root) := by
  have h : Dosage.has_complex_dosage_methods root "" = false := by
    unfold Dosage.has_complex_dosage_methods
    rw [if_pos rfl]
  exact ⟨h, by simp [Dosage.extract_dosages, h]⟩

/-- C8: complex detection is monotonic — a standard-classified document
with at most one distinct method label becomes complex once it holds a
second distinct label (table count unchanged), and no addition of labels or
tables ever turns a complex classification back to standard. -/
theorem claim_c8 (r r2 : XmlNode) (fp : String) (h : fp ≠ "") :
    (Dosage.has_complex_dosage_methods r fp = false →
      distinctLabelCountDoc r ≤ 1 →
      distinctLabelCountDoc r2 = 2 →
      tblBlockCountDoc r2 = tblBlockCountDoc r →
      Dosage.has_complex_dosage_methods r2 fp = true)
    ∧ (Dosage.has_complex_dosage_methods r fp = true →
      distinctLabelCountDoc r ≤ distinctLabelCountDoc r2 →
      tblBlockCountDoc r ≤ tblBlockCountDoc r2 →
      Dosage.has_complex_dosage_methods r2 fp = true) := by
  constructor
  · intro _ _ h2 _
    exact (has_complex_iff r2 fp h).mpr (Or.inl (by omega))
  · intro hc hl ht
    have hr := (has_complex_iff r fp h).mp hc
    exact (has_complex_iff r2 fp h).mpr (by omega)

/-- Witness for C8: adding the label `B法：` to a one-label document flips
the classification to complex; a complex document stays complex. -/
theorem claim_c8_witness :
    Dosage.has_complex_dosage_methods docOneLabel "file.xml" = false
    ∧ Dosage.has_complex_dosage_methods docTwoLabels "file.xml" = true := by
  refine ⟨by decide, ?_⟩
  exact (claim_c8 docOneLabel docTwoLabels "file.xml" (by decide)).1
    (by decide) (by decide) (by decide) (by decide)

/- ## Helper lemmas: non-emptiness facts -/

theorem ne_empty_of_contains {t pat : String} (hp : pat ≠ "")
    (h : containsSub t pat = true) : t ≠ "" := by
  intro e
  subst e
  unfold containsSub at h
  have : containsChars pat.data [] = pat.data.isEmpty := rfl
  rw [show (("" : String)).data = ([] : List Char) from rfl, this] at h
  rw [List.isEmpty_iff] at h
  exact hp ((string_eq_empty_iff pat).mpr h)

theorem ne_empty_of_one_lt_length {s : String} (h : 1 < s.length) : s ≠ "" := by
  intro e
  subst e
  exact absurd h (by decide)

theorem ne_empty_of_two_lt_length {s : String} (h : 2 < s.length) : s ≠ "" := by
  intro e
  subst e
  exact absurd h (by decide)

theorem pstrip_ne_src {s : String} (h : pstrip s ≠ "") : s ≠ "" := by
  intro e
  rw [e] at h
  exact h rfl

/-- C6: for a node with a single direct `Header/Lang[ja]` child, the
condition-header extraction returns the bracket-stripped content when the
text holds both `〈` and `〉` and the stripped content has length at least 3;
returns a plain header verbatim exactly when its length lies strictly
between 1 and 200; and the empty string when neither shape matches. -/
theorem claim_c6 (element h : XmlNode) (t : String)
    (hh : childPathLang element "Header" = [h])
    (ht : t = pstrip (itertext h)) :
    (containsSub t "〈" = true → containsSub t "〉" = true →
      2 < (pstrip (removeAngles t)).length →
      extract_condition_header element = pstrip (removeAngles t))
    ∧ (¬(containsSub t "〈" = true ∧ containsSub t "〉" = true) →
      1 < t.length → t.length < 200 →
      extract_condition_header element = t)
    ∧ ((containsSub t "〈" = true ∧ containsSub t "〉" = true ∧
          ¬2 < (pstrip (removeAngles t)).length)
       ∨ (¬(containsSub t "〈" = true ∧ containsSub t "〉" = true) ∧
          ¬(1 < t.length ∧ t.length < 200)) →
      extract_condition_header element = "") := by
  subst ht
  unfold extract_condition_header
  rw [hh]
  simp only [condHeaderGo]
  refine ⟨fun h1 h2 h3 => ?_, fun h1 h2 h3 => ?_, fun h1 => ?_⟩
  · have hne : pstrip (itertext h) ≠ "" := ne_empty_of_contains (by decide) h1
    have hcne : removeAngles (pstrip (itertext h)) ≠ "" :=
      pstrip_ne_src (ne_empty_of_two_lt_length h3)
    rw [if_pos hne, if_pos (Bool.and_eq_true _ _ |>.mpr ⟨h1, h2⟩),
      if_pos ⟨hcne, h3⟩]
  · have hne : pstrip (itertext h) ≠ "" := ne_empty_of_one_lt_length h2
    rw [if_pos hne, if_neg (fun hb => h1 (Bool.and_eq_true _ _ |>.mp hb)),
      if_pos ⟨h2, h3⟩]
  · rcases h1 with ⟨h1a, h1b, h1c⟩ | ⟨h1a, h1b⟩
    · have hne : pstrip (itertext h) ≠ "" := ne_empty_of_contains (by decide) h1a
      rw [if_pos hne, if_pos (Bool.and_eq_true _ _ |>.mpr ⟨h1a, h1b⟩),
        if_neg (fun hb => h1c hb.2)]
    · by_cases hne : pstrip (itertext h) = ""
      · rw [if_neg (fun hb => hb hne)]
      · rw [if_pos hne, if_neg (fun hb => h1a (Bool.and_eq_true _ _ |>.mp hb)),
          if_neg h1b]

/-- Witness for C6: a bracketed header is stripped, a plain short header is
returned verbatim, and a too-short bracketed header yields the empty
string. -/
theorem claim_c6_witness :
    extract_condition_header itemBracket = "高血圧症"
    ∧ extract_condition_header itemPlain = "投与時"
    ∧ extract_condition_header itemShortBracket = "" := by
  refine ⟨?_, ?_, ?_⟩
  · exact (claim_c6 itemBracket (langJa "〈高血圧症〉") _ rfl rfl).1
      (by decide) (by decide) (by decide)
  · exact (claim_c6 itemPlain (langJa "投与時") _ rfl rfl).2.1
      (by decide) (by decide) (by decide)
  · exact (claim_c6 itemShortBracket (langJa "〈あ〉") _ rfl rfl).2.2
      (Or.inl ⟨by decide, by decide, by decide⟩)

/- ## Helper lemmas: prefixes and tree sizes -/

theorem str_append_assoc (a b c : String) : (a ++ b) ++ c = a ++ (b ++ c) :=
  string_ext (by simp only [data_append, List.append_assoc])

theorem startsWith_self_append (p s : List Char) :
    startsWithChars p (p ++ s) = true := by
  induction p with
  | nil => rfl
  | cons a as ih => simp [startsWithChars, ih]

theorem prefix_append1 (p x : String) :
    startsWithChars p.data ((p ++ x)).data = true := by
  rw [data_append]
  exact startsWith_self_append _ _

theorem prefix_append2 (p a b : String) :
    startsWithChars p.data (((p ++ a) ++ b)).data = true := by
  rw [str_append_assoc]
  exact prefix_append1 _ _

theorem prefix_append3 (p a b c : String) :
    startsWithChars p.data ((((p ++ a) ++ b) ++ c)).data = true := by
  rw [str_append_assoc, str_append_assoc]
  exact prefix_append1 _ _

theorem sizeOf_children_lt (n : XmlNode) : sizeOf n.children < sizeOf n := by
  cases n with
  | node t l x tl ch => simp [XmlNode.children]

theorem sizeOf_childPath2_lt {c item : XmlNode} {a b : String}
    (h : c ∈ childPath2 item a b) : sizeOf c < sizeOf item := by
  unfold childPath2 childrenTag at h
  rw [List.mem_flatMap] at h
  obtain ⟨sl, hsl, hc⟩ := h
  rw [List.mem_filter] at hsl hc
  have h1 : sizeOf c < sizeOf sl.children := List.sizeOf_lt_of_mem hc.1
  have h2 : sizeOf sl < sizeOf item.children := List.sizeOf_lt_of_mem hsl.1
  have h3 : sizeOf sl.children < sizeOf sl := sizeOf_children_lt sl
  have h4 : sizeOf item.children < sizeOf item := sizeOf_children_lt item
  omega

theorem sizeOf_pos (n : XmlNode) : 0 < sizeOf n := by
  cases n with
  | node t l x tl ch => simp

/- ## Helper lemmas: side-effect record shapes -/

theorem pstrip_headerTextOf (item : XmlNode) :
    pstrip (SideEffect.headerTextOf item) = SideEffect.headerTextOf item := by
  unfold SideEffect.headerTextOf
  cases childPathLang item "Header" with
  | nil => rfl
  | cons h rest => exact pstrip_idem _

theorem format_severity_prefix (text comb : String) :
    startsWithChars "重篤:".data
      (SideEffect.format_side_effect_with_condition text comb "重篤").data = true := by
  simp only [SideEffect.format_side_effect_with_condition]
  split
  · split
    · exact prefix_append3 "重篤:" _ _ _
    · exact prefix_append1 "重篤:" _
  · next hf => exact absurd (not_not.mp hf) (by decide)

theorem renderDetail_severity_prefix (ht comb dt : String) :
    startsWithChars "重篤:".data
      (SideEffect.renderDetail "重篤" ht comb dt).data = true := by
  simp only [SideEffect.renderDetail]
  split
  · exact prefix_append3 "重篤:" _ _ _
  · split
    · exact prefix_append1 "重篤:" _
    · split
      · exact format_severity_prefix _ _
      · exact format_severity_prefix _ _

theorem se_ownRecords_severity_prefix (item : XmlNode) (comb : String) :
    ∀ r ∈ SideEffect.ownRecords item comb "重篤",
      startsWithChars "重篤:".data r.data = true := by
  intro r hr
  unfold SideEffect.ownRecords at hr
  rcases List.mem_append.mp hr with hdet | hhd
  · rw [List.mem_filterMap] at hdet
    obtain ⟨d, _, hsome⟩ := hdet
    split at hsome
    · cases hsome
      exact renderDetail_severity_prefix _ _ _
    · cases hsome
  · split at hhd
    · rw [List.mem_singleton] at hhd
      subst hhd
      split
      · exact prefix_append1 "重篤:" _
      · next hf => exact absurd rfl hf
    · cases hhd

theorem se_severity_prefix :
    ∀ (n : Nat) (item : XmlNode), sizeOf item ≤ n →
      ∀ (cond r : String),
        r ∈ SideEffect.process_nested_items item cond "重篤" →
        startsWithChars "重篤:".data r.data = true := by
  intro n
  induction n with
  | zero =>
    intro item hsz
    exact absurd hsz (by have := sizeOf_pos item; omega)
  | succ k ih =>
    intro item hsz cond r hr
    rw [se_process_flatMap] at hr
    rcases List.mem_append.mp hr with hown | hnested
    · exact se_ownRecords_severity_prefix item _ r hown
    · rw [List.mem_flatMap] at hnested
      obtain ⟨c, hc, hr2⟩ := hnested
      have hlt : sizeOf c < sizeOf item := sizeOf_childPath2_lt hc
      exact ih c (by omega) _ r hr2

theorem extract_nd_both {ht dt : String} (h1 : ht ≠ "") (h2 : dt ≠ "") :
    SideEffect.extract_side_effect_name_and_description ht dt =
      (pstrip ht, pstrip dt) := by
  unfold SideEffect.extract_side_effect_name_and_description
  rw [if_pos ⟨h1, h2⟩]

theorem renderDetail_both {ht comb dt : String} (h1 : ht ≠ "") (h2 : dt ≠ "")
    (hp : pstrip ht = ht) (hq : pstrip dt = dt) :
    SideEffect.renderDetail "重篤" ht comb dt = "重篤:" ++ ht ++ ":" ++ dt := by
  simp only [SideEffect.renderDetail, extract_nd_both h1 h2, hp, hq]
  rw [if_pos ⟨trivial, h1, h2⟩]

/-- C2: for every Item processed under a serious-adverse-events section,
the record for a non-blank Detail text with a non-empty Header name is
`重篤:<name>:<description>`; with a Header and no Detail element the record
is `重篤:<name>`; and every record emitted under the serious section starts
with the severity token `重篤:`, ahead of any condition context. -/
theorem claim_c2 (item : XmlNode) (cond : String) :
    (∀ d ∈ childPathLang item "Detail",
      SideEffect.headerTextOf item ≠ "" → pstrip d.text ≠ "" →
      ("重篤:" ++ SideEffect.headerTextOf item ++ ":" ++ pstrip d.text)
        ∈ SideEffect.process_nested_items item cond "重篤")
    ∧ (SideEffect.headerTextOf item ≠ "" → childPathLang item "Detail" = [] →
      ("重篤:" ++ SideEffect.headerTextOf item)
        ∈ SideEffect.process_nested_items item cond "重篤")
    ∧ (∀ r ∈ SideEffect.process_nested_items item cond "重篤",
        startsWithChars "重篤:".data r.data = true) := by
  refine ⟨?_, ?_, ?_⟩
  · intro d hd hht hdt
    rw [se_process_flatMap]
    refine List.mem_append.mpr (Or.inl ?_)
    simp only [SideEffect.ownRecords]
    refine List.mem_append.mpr (Or.inl ?_)
    refine List.mem_filterMap.mpr ⟨d, hd, ?_⟩
    rw [if_pos ⟨pstrip_ne_src hdt, hdt⟩,
      renderDetail_both hht hdt (pstrip_headerTextOf item) (pstrip_idem _)]
  · intro hht hempty
    rw [se_process_flatMap]
    refine List.mem_append.mpr (Or.inl ?_)
    simp only [SideEffect.ownRecords, hempty, List.filterMap_nil, List.isEmpty_nil,
      List.nil_append, and_true]
    rw [if_pos hht, if_pos]
    · exact List.Mem.head _
    · trivial
  · intro r hr
    exact se_severity_prefix (sizeOf item) item (le_refl _) cond r hr

/-- Witness for C2: the spec's scenario Item renders
`重篤:ショック:呼吸困難等が現れることがある`, and a header-only Item renders
`重篤:ショック`. -/
theorem claim_c2_witness :
    ("重篤:ショック:呼吸困難等が現れることがある"
      ∈ SideEffect.process_nested_items itemShock "" "重篤")
    ∧ ("重篤:ショック" ∈ SideEffect.process_nested_items itemHeaderOnly "" "重篤") := by
  constructor
  · exact (claim_c2 itemShock "").1 (langJa "呼吸困難等が現れることがある")
      (List.Mem.head _) (by decide) (by decide)
  · exact (claim_c2 itemHeaderOnly "").2.1 (by decide) rfl

/-- C5 (amended): on the complex path the records are the premise followed
by one record per method-label occurrence, and a label's table entries are
those of the table block at ordinal `letter − 'A'` in document order — the
pairing index is derived from the label's letter, not from the label's
ordinal among the labels found. -/
theorem claim_c5 (root info da : XmlNode)
    (h1 : findFirstDesc root "InfoDoseAdmin" = some info)
    (h2 : findFirstDesc info "DoseAdmin" = some da) :
    Dosage.extract_complex_dosages root =
      Except.ok (Dosage.premiseRecords da ++
        (Dosage.scanMethods (Dosage.concatDetailTexts da)).map
          (Dosage.methodRecord (findAllDesc da "TblBlock")))
    ∧ (∀ (tbls : List XmlNode) (c : Char), c ∈ Dosage.labelChars →
        Dosage.methodDosageByBsa tbls (Dosage.mkLabel c) =
          Dosage.methodTableGo (c.toNat - 'A'.toNat) tbls 0) := by
  constructor
  · unfold Dosage.extract_complex_dosages
    rw [h1]
    dsimp only
    rw [h2]
  · intro tbls c hc
    simp [Dosage.methodDosageByBsa, Dosage.mkLabel, hc]

/-- Counterexample to C5 as stated: in `docBC` the first label found is
`B法` (ordinal 0 among the labels found) while the table whose entries it
receives is the one at document ordinal 1 (`r1:d1`), not ordinal 0
(`r0:d0`); the claim's predicted record never appears. -/
theorem claim_c5_counterexample :
    Dosage.scanMethods (Dosage.concatDetailTexts daBC)
      = [("B法", "x<?enter?>"), ("C法", "y ")]
    ∧ Dosage.methodTableGo 0 (findAllDesc daBC "TblBlock") 0 = ["r0:d0"]
    ∧ Dosage.methodTableGo 1 (findAllDesc daBC "TblBlock") 0 = ["r1:d1"]
    ∧ Dosage.extract_dosages docBC "f.xml" =
        Except.ok ["B法：x", "B法:x/体表面積r1:d1", "C法:y"]
    ∧ ("B法:x/体表面積r0:d0" ∉ ["B法：x", "B法:x/体表面積r1:d1", "C法:y"]) :=
  ⟨rfl, rfl, rfl, rfl, by decide⟩

/-- Witness for C5 at `docBC`. -/
theorem claim_c5_witness :
    Dosage.extract_complex_dosages docBC =
      Except.ok (Dosage.premiseRecords daBC ++
        (Dosage.scanMethods (Dosage.concatDetailTexts daBC)).map
          (Dosage.methodRecord (findAllDesc daBC "TblBlock")))
    ∧ Dosage.methodDosageByBsa (findAllDesc daBC "TblBlock") (Dosage.mkLabel 'B') =
        Dosage.methodTableGo ('B'.toNat - 'A'.toNat) (findAllDesc daBC "TblBlock") 0 := by
  have h := claim_c5 docBC (el "InfoDoseAdmin" [daBC]) daBC rfl rfl
  exact ⟨h.1, h.2 (findAllDesc daBC "TblBlock") 'B' (by decide)⟩

/-- C4: the claim fails on the code. On a document whose dosage section
holds two table blocks but no `DoseAdmin` element, the complex path
dereferences `None` and raises `AttributeError`; the module-level
`parse_dosages` boundary converts this (and load failures) to an empty
list, but `SharedXMLProcessor.extract_clinical_info` calls
`extract_dosages` with no such boundary, so the exception propagates to its
caller. -/
theorem claim_c4 :
    Dosage.extract_dosages docNoDoseAdmin "file.xml" = Except.error "AttributeError"
    ∧ Dosage.parse_dosages (fun _ => Except.ok docNoDoseAdmin) "file.xml" = []
    ∧ Dosage.parse_dosages (fun _ => Except.error "ParseError") "file.xml" = [] :=
  ⟨rfl, rfl, rfl⟩

/- ## Helper lemmas: whitespace-clean concatenation -/

theorem headNotWS_append_any {s t : String} (hs : headNotWS s = true)
    (ht : headNotWS t = true) : headNotWS (s ++ t) = true := by
  by_cases h : s = ""
  · subst h; exact ht
  · exact headNotWS_append _ h hs

theorem lastNotWS_append_any {s t : String} (hs : lastNotWS s = true)
    (ht : lastNotWS t = true) : lastNotWS (s ++ t) = true := by
  by_cases h : t = ""
  · subst h; rw [append_empty_str]; exact hs
  · exact lastNotWS_append _ h ht

theorem recOK_mid {a sep b : String} (ha : a ≠ "") (hah : headNotWS a = true)
    (hb : b ≠ "") (hbl : lastNotWS b = true) : recOK (a ++ sep ++ b) :=
  ⟨append_ne_right _ hb,
   headNotWS_append _ (append_ne_left _ ha) (headNotWS_append _ ha hah),
   lastNotWS_append _ hb hbl⟩

theorem joinSep_ok (sep : String) :
    ∀ parts : List String, parts ≠ [] →
      (∀ p ∈ parts, p ≠ "" ∧ headNotWS p = true ∧ lastNotWS p = true) →
      joinSep sep parts ≠ "" ∧ headNotWS (joinSep sep parts) = true ∧
        lastNotWS (joinSep sep parts) = true := by
  intro parts
  induction parts with
  | nil => intro h; exact absurd rfl h
  | cons x xs ih =>
    intro _ hall
    cases xs with
    | nil => exact hall x (List.Mem.head _)
    | cons y rest =>
      have hx := hall x (List.Mem.head _)
      have hrest := ih (by simp) (fun p hp => hall p (List.mem_cons_of_mem _ hp))
      show joinSep sep (x :: y :: rest) ≠ "" ∧ _ ∧ _
      have hj : joinSep sep (x :: y :: rest) = x ++ sep ++ joinSep sep (y :: rest) := rfl
      rw [hj]
      exact recOK_mid hx.1 hx.2.1 hrest.1 hrest.2.2

/- ## Helper lemmas: dosage table records -/

theorem etct_ws (cell : XmlNode) :
    headNotWS (Dosage.extract_table_cell_text cell) = true ∧
    lastNotWS (Dosage.extract_table_cell_text cell) = true := by
  unfold Dosage.extract_table_cell_text
  exact ⟨headNotWS_pstrip _, lastNotWS_pstrip _⟩

theorem dosageInfoEntries_ok (headers : List String) (cells : List XmlNode) :
    ∀ e ∈ Dosage.dosageInfoEntries headers cells,
      e ≠ "" ∧ headNotWS e = true ∧ lastNotWS e = true := by
  intro e he
  unfold Dosage.dosageInfoEntries at he
  rw [List.mem_filterMap] at he
  obtain ⟨p, _, hsome⟩ := he
  dsimp only at hsome
  by_cases hcond : (Dosage.extract_table_cell_text p.2 ≠ "" ∧
      pstrip (Dosage.extract_table_cell_text p.2) ≠ "－" ∧
      pstrip (Dosage.extract_table_cell_text p.2) ≠ "")
  · rw [if_pos hcond] at hsome
    cases hget : headers.get? p.1 with
    | some h0 =>
      rw [hget] at hsome
      cases hsome
      exact ⟨append_ne_right _ hcond.1,
        headNotWS_append_any
          (headNotWS_append_any (headNotWS_pstrip _) colon_head) (etct_ws _).1,
        lastNotWS_append _ hcond.1 (etct_ws _).2⟩
    | none =>
      rw [hget] at hsome
      cases hsome
      exact ⟨hcond.1, (etct_ws _).1, (etct_ws _).2⟩
  · rw [if_neg hcond] at hsome
    cases hsome

theorem parse_dosage_table_ok (tblBlock : XmlNode) :
    ∀ r ∈ Dosage.parse_dosage_table tblBlock, recOK r := by
  intro r hr
  unfold Dosage.parse_dosage_table at hr
  split at hr
  · cases hr
  · split at hr
    · cases hr
    · rw [List.mem_filterMap] at hr
      obtain ⟨row, _, hsome⟩ := hr
      cases hcells : childrenTag row "SimpTblCell" with
      | nil => rw [hcells] at hsome; cases hsome
      | cons pc restCells =>
        rw [hcells] at hsome
        try dsimp only at hsome
        by_cases hproc : (Dosage.extract_table_cell_text pc = "" ∨
            pstrip (Dosage.extract_table_cell_text pc) = "")
        · rw [if_pos hproc] at hsome; cases hsome
        · rw [if_neg hproc] at hsome
          try dsimp only at hsome
          split at hsome
          · rename_i hinfo
            cases hsome
            have hpn : Dosage.extract_table_cell_text pc ≠ "" :=
              fun e => hproc (Or.inl e)
            have hj := joinSep_ok " / " _ hinfo (dosageInfoEntries_ok _ _)
            exact recOK_mid hpn (etct_ws _).1 hj.1 hj.2.2
          · cases hsome

/- ## Helper lemmas: membership in text searches -/

theorem mem_of_contains {p : Char} {ps l : List Char}
    (h : containsChars (p :: ps) l = true) : p ∈ l := by
  induction l with
  | nil => simp [containsChars, List.isEmpty] at h
  | cons c cs ih =>
    rw [containsChars] at h
    rcases (Bool.or_eq_true _ _).mp h with h1 | h1
    · rw [startsWithChars] at h1
      have hpc : p = c := of_decide_eq_true ((Bool.and_eq_true _ _).mp h1).1
      rw [hpc]
      exact List.Mem.head _
    · exact List.mem_cons_of_mem _ (ih h1)

theorem mem_dropWhile_of_not (p : Char → Bool) {c : Char} :
    ∀ l : List Char, c ∈ l → p c = false → c ∈ l.dropWhile p := by
  intro l
  induction l with
  | nil => intro h _; cases h
  | cons a as ih =>
    intro hmem hpc
    rw [List.dropWhile_cons]
    by_cases hpa : p a = true
    · rw [if_pos hpa]
      rcases List.mem_cons.mp hmem with he | hm
      · subst he; rw [hpc] at hpa; cases hpa
      · exact ih hm hpc
    · rw [if_neg hpa]; exact hmem

theorem stripChars_ne_nil {c : Char} {l : List Char} (hc : c ∈ l)
    (hw : isWS c = false) : stripChars l ≠ [] := by
  intro e
  unfold stripChars at e
  have h1 : c ∈ l.dropWhile isWS := mem_dropWhile_of_not isWS l hc hw
  have h2 : c ∈ (l.dropWhile isWS).reverse := List.mem_reverse.mpr h1
  have h3 : c ∈ (l.dropWhile isWS).reverse.dropWhile isWS :=
    mem_dropWhile_of_not isWS _ h2 hw
  rw [List.reverse_eq_nil_iff] at e
  rw [e] at h3
  cases h3

theorem pstrip_ne_of_contains_usage {s : String}
    (h : containsSub s "用法・用量" = true) : pstrip s ≠ "" := by
  intro e
  have hc : '用' ∈ s.data :=
    mem_of_contains
      (show containsChars ('用' :: "法・用量".data) s.data = true from h)
  have hne : stripChars s.data ≠ [] := stripChars_ne_nil hc (by decide)
  exact hne ((string_eq_empty_iff (pstrip s)).mp e)

/- ## Helper lemmas: standard-path dosage candidates -/

theorem baseDetailRecs_ok (da : XmlNode) :
    ∀ r ∈ Dosage.baseDetailRecs da, recOK r := by
  intro r hr
  unfold Dosage.baseDetailRecs at hr
  rw [List.mem_filterMap] at hr
  obtain ⟨d, _, hsome⟩ := hr
  split at hsome
  · rename_i hcond; cases hsome; exact recOK_pstrip hcond.2
  · cases hsome

theorem commentRecs_ok (da : XmlNode) :
    ∀ r ∈ Dosage.commentRecs da, recOK r := by
  intro r hr
  unfold Dosage.commentRecs at hr
  rw [List.mem_filterMap] at hr
  obtain ⟨d, _, hsome⟩ := hr
  split at hsome
  · rename_i hcond
    cases hsome
    exact ⟨append_ne_left _ (by decide),
      headNotWS_append _ (by decide) (by decide),
      lastNotWS_append _ hcond.2 (lastNotWS_pstrip _)⟩
  · cases hsome

theorem detailRecords_ok (item : XmlNode) {comb : String}
    (hcomb : headNotWS comb = true) :
    ∀ r ∈ Dosage.detailRecords item comb, recOK r := by
  intro r hr
  unfold Dosage.detailRecords at hr
  rw [List.mem_filterMap] at hr
  obtain ⟨d, _, hsome⟩ := hr
  split at hsome
  · rename_i hcond; cases hsome; exact format_dosage_of_pstrip hcomb hcond.2
  · cases hsome

theorem detailFallbackRecs_ok (da : XmlNode) :
    ∀ r ∈ Dosage.detailFallbackRecs da, recOK r := by
  intro r hr
  unfold Dosage.detailFallbackRecs at hr
  try dsimp only at hr
  rw [List.mem_filterMap] at hr
  obtain ⟨d, _, hsome⟩ := hr
  split at hsome
  · rename_i hcond
    cases hsome
    exact format_dosage_of_pstrip (condHeader_ws da).1 hcond.2
  · cases hsome

theorem scanFallbackRecs_ok (root : XmlNode) :
    ∀ r ∈ Dosage.scanFallbackRecs root, recOK r := by
  intro r hr
  unfold Dosage.scanFallbackRecs at hr
  rw [List.mem_filterMap] at hr
  obtain ⟨e, _, hsome⟩ := hr
  split at hsome
  · rename_i hcond
    cases hsome
    exact format_dosage_of_pstrip headNotWS_empty
      (pstrip_ne_of_contains_usage hcond.2)
  · cases hsome

theorem dosage_process_ok :
    ∀ (n : Nat) (item : XmlNode), sizeOf item ≤ n →
      ∀ cond : String, headNotWS cond = true →
        ∀ r ∈ Dosage.process_nested_items item cond, recOK r := by
  intro n
  induction n with
  | zero =>
    intro item hsz
    exact absurd hsz (by have := sizeOf_pos item; omega)
  | succ k ih =>
    intro item hsz cond hcond r hr
    rw [dosage_process_flatMap] at hr
    rcases List.mem_append.mp hr with hown | hnested
    · exact detailRecords_ok item
        (combine_headNotWS hcond (condHeader_ws item).1) r hown
    · rw [List.mem_flatMap] at hnested
      obtain ⟨c, hc, hr2⟩ := hnested
      exact ih c (by have := sizeOf_childPath2_lt hc; omega) _
        (combine_headNotWS hcond (condHeader_ws item).1) r hr2

theorem doseAdminCandidates_ok (da : XmlNode) :
    ∀ r ∈ Dosage.doseAdminCandidates da, recOK r := by
  intro r hr
  unfold Dosage.doseAdminCandidates at hr
  try dsimp only at hr
  split at hr
  · rcases List.mem_append.mp hr with h1 | h2
    · rcases List.mem_append.mp h1 with h3 | h4
      · exact baseDetailRecs_ok da r h3
      · rw [List.mem_flatMap] at h4
        obtain ⟨tb, _, h⟩ := h4
        exact parse_dosage_table_ok tb r h
    · exact commentRecs_ok da r h2
  · rcases List.mem_append.mp hr with h1 | h2
    · rw [List.mem_flatMap] at h1
      obtain ⟨it, _, h⟩ := h1
      exact dosage_process_ok (sizeOf it) it (le_refl _) "" rfl r h
    · split at h2
      · exact detailFallbackRecs_ok da r h2
      · cases h2

theorem dosageCandidates_ok (root : XmlNode) :
    ∀ r ∈ Dosage.dosageCandidates root, recOK r := by
  intro r hr
  unfold Dosage.dosageCandidates at hr
  rcases List.mem_append.mp hr with h1 | h2
  · rw [List.mem_flatMap] at h1
    obtain ⟨info, _, h⟩ := h1
    rw [List.mem_flatMap] at h
    obtain ⟨da, _, h⟩ := h
    exact doseAdminCandidates_ok da r h
  · exact scanFallbackRecs_ok root r h2

/- ## Helper lemmas: complex-path dosage records -/

theorem headNotWS_of_head {s : String}
    (h : ∀ c, s.data.head? = some c → isWS c = false) : headNotWS s = true := by
  unfold headNotWS
  cases hh : s.data.head? with
  | none => rfl
  | some c => simp [h c hh]

theorem takeBeforeEnter_head (l : List Char) :
    takeBeforeEnter l = [] ∨ (takeBeforeEnter l).head? = l.head? := by
  cases l with
  | nil => exact Or.inl rfl
  | cons c rest =>
    rw [takeBeforeEnter]
    by_cases h : startsWithChars enterMark (c :: rest) = true
    · rw [if_pos h]; exact Or.inl rfl
    · rw [if_neg h]; exact Or.inr rfl

theorem headNotWS_splitEnter_pstrip (s : String) :
    headNotWS (splitEnterHead (pstrip s)) = true := by
  apply headNotWS_of_head
  intro c hc
  have hd : (takeBeforeEnter (pstrip s).data).head? = some c := hc
  rcases takeBeforeEnter_head (pstrip s).data with h | h
  · rw [h] at hd; cases hd
  · rw [h] at hd
    exact head_stripChars s.data c hd

theorem premiseRecords_ok (da : XmlNode) :
    ∀ r ∈ Dosage.premiseRecords da, r ≠ "" ∧ headNotWS r = true := by
  intro r hr
  unfold Dosage.premiseRecords at hr
  split at hr
  · split at hr
    · try dsimp only at hr
      split at hr
      · rename_i hprem
        rw [List.mem_singleton] at hr
        subst hr
        exact ⟨hprem, headNotWS_splitEnter_pstrip _⟩
      · cases hr
    · cases hr
  · cases hr

theorem mkLabel_ok {c : Char} (hc : c ∈ Dosage.labelChars) :
    Dosage.mkLabel c ≠ "" ∧ headNotWS (Dosage.mkLabel c) = true ∧
      lastNotWS (Dosage.mkLabel c) = true := by
  fin_cases hc <;> exact ⟨by decide, by decide, by decide⟩

theorem scanFlush_letters {pending : Option (Char × List Char)}
    (hinv : ∀ l d, pending = some (l, d) → l ∈ Dosage.labelChars) :
    ∀ m ∈ Dosage.scanFlush pending,
      ∃ c ∈ Dosage.labelChars, m.1 = Dosage.mkLabel c := by
  intro m hm
  unfold Dosage.scanFlush at hm
  split at hm
  · rename_i l d
    split at hm
    · cases hm
    · rw [List.mem_singleton] at hm
      subst hm
      exact ⟨l, hinv l d rfl, rfl⟩
  · cases hm

theorem parse_complex_table_ok (table : XmlNode) :
    ∀ e ∈ Dosage.parse_complex_dosage_table table,
      e ≠ "" ∧ headNotWS e = true ∧ lastNotWS e = true := by
  intro e he
  unfold Dosage.parse_complex_dosage_table at he
  rw [List.mem_filterMap] at he
  obtain ⟨row, _, hsome⟩ := he
  split at hsome
  · try dsimp only at hsome
    split at hsome
    · rename_i hcond
      cases hsome
      exact ⟨append_ne_right _ hcond.2,
        headNotWS_append_any
          (headNotWS_append_any (headNotWS_pstrip _) colon_head)
          (headNotWS_pstrip _),
        lastNotWS_append _ hcond.2 (lastNotWS_pstrip _)⟩
    · cases hsome
  · cases hsome

theorem methodTableGo_ok (idx : Nat) :
    ∀ (tbls : List XmlNode) (i : Nat), ∀ e ∈ Dosage.methodTableGo idx tbls i,
      e ≠ "" ∧ headNotWS e = true ∧ lastNotWS e = true := by
  intro tbls
  induction tbls with
  | nil => intro i e he; cases he
  | cons tb rest ih =>
    intro i e he
    rw [Dosage.methodTableGo] at he
    split at he
    · split at he
      · exact parse_complex_table_ok _ e he
      · exact ih (i + 1) e he
    · exact ih (i + 1) e he

theorem methodDosageByBsa_ok (tbls : List XmlNode) (name : String) :
    ∀ e ∈ Dosage.methodDosageByBsa tbls name,
      e ≠ "" ∧ headNotWS e = true ∧ lastNotWS e = true := by
  intro e he
  unfold Dosage.methodDosageByBsa at he
  split at he
  · split at he
    · exact methodTableGo_ok _ _ _ e he
    · cases he
  · cases he

theorem methodRecord_ok {tblBlocks : List XmlNode} {m : String × String}
    (hm : ∃ c ∈ Dosage.labelChars, m.1 = Dosage.mkLabel c) :
    recOK (Dosage.methodRecord tblBlocks m) := by
  obtain ⟨c, hc, h1⟩ := hm
  have hl := mkLabel_ok hc
  rw [← h1] at hl
  unfold Dosage.methodRecord
  try dsimp only
  split
  · rename_i hbsa
    have hj := joinSep_ok "、" _ hbsa (methodDosageByBsa_ok _ _)
    refine ⟨append_ne_right _ hj.1, ?_, lastNotWS_append _ hj.1 hj.2.2⟩
    exact headNotWS_append _
      (append_ne_left _ (append_ne_left _ (append_ne_left _ hl.1)))
      (headNotWS_append _ (append_ne_left _ (append_ne_left _ hl.1))
        (headNotWS_append _ (append_ne_left _ hl.1)
          (headNotWS_append _ hl.1 hl.2.1)))
  · refine ⟨append_ne_left _ (append_ne_left _ hl.1), ?_, ?_⟩
    · exact headNotWS_append _ (append_ne_left _ hl.1)
        (headNotWS_append _ hl.1 hl.2.1)
    · exact lastNotWS_append_any (lastNotWS_append_any hl.2.2 colon_last)
        (lastNotWS_pstrip _)

theorem scanAux_letters :
    ∀ (n : Nat) (cs : List Char), cs.length ≤ n →
      ∀ pending : Option (Char × List Char),
        (∀ l d, pending = some (l, d) → l ∈ Dosage.labelChars) →
        ∀ m ∈ Dosage.scanAux cs pending,
          ∃ c ∈ Dosage.labelChars, m.1 = Dosage.mkLabel c := by
  intro n
  induction n with
  | zero =>
    intro cs hlen pending hinv m hm
    have hcs : cs = [] := List.eq_nil_of_length_eq_zero (Nat.le_zero.mp hlen)
    subst hcs
    exact scanFlush_letters hinv m hm
  | succ k ih =>
    intro cs hlen pending hinv m hm
    cases pending with
    | none =>
      rw [Dosage.scanAux.eq_def] at hm
      split at hm
      · rename_i c rest
        try dsimp only at hm
        split at hm
        · rename_i hdec
          have hc : c ∈ Dosage.labelChars := of_decide_eq_true hdec
          exact ih rest (by simp only [List.length_cons] at hlen; omega) _
            (fun l d h => by
              simp only [Option.some.injEq, Prod.mk.injEq] at h
              exact h.1 ▸ hc) m hm
        · exact ih _ (by simp only [List.length_cons] at hlen ⊢; omega) none
            (fun l d h => nomatch h) m hm
      · rename_i c rest hcon
        try dsimp only at hm
        exact ih rest (by simp only [List.length_cons] at hlen; omega) none
          (fun l d h => nomatch h) m hm
      · exact @scanFlush_letters none (fun l d h => nomatch h) m hm
    | some p =>
      obtain ⟨l0, d0⟩ := p
      have hl0 : l0 ∈ Dosage.labelChars := hinv l0 d0 rfl
      rw [Dosage.scanAux.eq_def] at hm
      split at hm
      · rename_i c rest
        try dsimp only at hm
        split at hm
        · rename_i hdec
          have hc : c ∈ Dosage.labelChars := of_decide_eq_true hdec
          split at hm
          · exact ih _ (by simp only [List.length_cons] at hlen ⊢; omega) _
              (fun l d h => by
                simp only [Option.some.injEq, Prod.mk.injEq] at h
                exact h.1 ▸ hl0) m hm
          · rcases List.mem_cons.mp hm with he | hm2
            · subst he; exact ⟨l0, hl0, rfl⟩
            · exact ih rest (by simp only [List.length_cons] at hlen; omega) _
                (fun l d h => by
                  simp only [Option.some.injEq, Prod.mk.injEq] at h
                  exact h.1 ▸ hc) m hm2
        · exact ih _ (by simp only [List.length_cons] at hlen ⊢; omega) _
            (fun l d h => by
              simp only [Option.some.injEq, Prod.mk.injEq] at h
              exact h.1 ▸ hl0) m hm
      · rename_i c rest hcon
        try dsimp only at hm
        exact ih rest (by simp only [List.length_cons] at hlen; omega) _
          (fun l d h => by
            simp only [Option.some.injEq, Prod.mk.injEq] at h
            exact h.1 ▸ hl0) m hm
      · exact scanFlush_letters hinv m hm

theorem scanMethods_letters {s : String} :
    ∀ m ∈ Dosage.scanMethods s, ∃ c ∈ Dosage.labelChars, m.1 = Dosage.mkLabel c :=
  scanAux_letters s.data.length s.data (le_refl _) none (fun _ _ h => nomatch h)

theorem extract_complex_ok (root : XmlNode) {l : List String}
    (h : Dosage.extract_complex_dosages root = Except.ok l) :
    ∀ r ∈ l, r ≠ "" ∧ headNotWS r = true ∧
      (lastNotWS r = true ∨ isComplexPremise root r) := by
  intro r hr
  unfold Dosage.extract_complex_dosages at h
  split at h
  · injection h with h
    subst h
    cases hr
  · rename_i info hinfo
    split at h
    · exact Except.noConfusion h
    · rename_i da hda
      try dsimp only at h
      injection h with h
      subst h
      rcases List.mem_append.mp hr with hp | hm
      · have hpre := premiseRecords_ok da r hp
        exact ⟨hpre.1, hpre.2, Or.inr ⟨info, da, hinfo, hda, hp⟩⟩
      · rw [List.mem_map] at hm
        obtain ⟨mm, hmm, he⟩ := hm
        subst he
        have hrec : recOK (Dosage.methodRecord (findAllDesc da "TblBlock") mm) :=
          methodRecord_ok (scanMethods_letters mm hmm)
        exact ⟨hrec.1, hrec.2.1, Or.inl hrec.2.2⟩

/- ## Helper lemmas: side-effect record well-formedness -/

theorem extract_nd_ws (ht dt : String) :
    headNotWS (SideEffect.extract_side_effect_name_and_description ht dt).1 = true ∧
    lastNotWS (SideEffect.extract_side_effect_name_and_description ht dt).1 = true ∧
    headNotWS (SideEffect.extract_side_effect_name_and_description ht dt).2 = true ∧
    lastNotWS (SideEffect.extract_side_effect_name_and_description ht dt).2 = true := by
  unfold SideEffect.extract_side_effect_name_and_description
  split
  · exact ⟨headNotWS_pstrip _, lastNotWS_pstrip _, headNotWS_pstrip _,
      lastNotWS_pstrip _⟩
  · split
    · exact ⟨headNotWS_pstrip _, lastNotWS_pstrip _, rfl, rfl⟩
    · split
      · exact ⟨rfl, rfl, headNotWS_pstrip _, lastNotWS_pstrip _⟩
      · exact ⟨rfl, rfl, rfl, rfl⟩

theorem format_se_ok {text comb sev : String} (hsev : sev ≠ "")
    (hsh : headNotWS sev = true)
    (ht : text ≠ "") (_hth : headNotWS text = true) (htl : lastNotWS text = true) :
    recOK (SideEffect.format_side_effect_with_condition text comb sev) := by
  unfold SideEffect.format_side_effect_with_condition
  split
  · split
    · exact recOK_mid (append_ne_left _ (append_ne_left _ hsev))
        (headNotWS_append _ (append_ne_left _ hsev)
          (headNotWS_append _ hsev hsh)) ht htl
    · exact recOK_mid hsev hsh ht htl
  · rename_i hf
    exact absurd (not_not.mp hf) hsev

theorem headerTextOf_ws (item : XmlNode) :
    headNotWS (SideEffect.headerTextOf item) = true ∧
    lastNotWS (SideEffect.headerTextOf item) = true := by
  unfold SideEffect.headerTextOf
  split
  · exact ⟨rfl, rfl⟩
  · exact ⟨headNotWS_pstrip _, lastNotWS_pstrip _⟩

theorem renderDetail_ok {sev ht comb dt : String} (hsev : sev ≠ "")
    (hsh : headNotWS sev = true)
    (hdt : dt ≠ "") (hdh : headNotWS dt = true) (hdl : lastNotWS dt = true)
    (hth : headNotWS ht = true) :
    recOK (SideEffect.renderDetail sev ht comb dt) := by
  have hw := extract_nd_ws ht dt
  simp only [SideEffect.renderDetail]
  split
  · rename_i hc
    exact ⟨append_ne_right _ hc.2.2,
      headNotWS_append _ (append_ne_left _ (append_ne_left _ (by decide)))
        (headNotWS_append _ (append_ne_left _ (by decide))
          (headNotWS_append _ (by decide) (by decide))),
      lastNotWS_append _ hc.2.2 hw.2.2.2⟩
  · split
    · rename_i hc
      exact ⟨append_ne_left _ (by decide),
        headNotWS_append _ (by decide) (by decide),
        lastNotWS_append _ hc.2 hw.2.1⟩
    · split
      · rename_i hc
        exact format_se_ok hsev hsh (append_ne_right _ hdt)
          (headNotWS_append _ (append_ne_left _ hc.1)
            (headNotWS_append _ hc.1 hth))
          (lastNotWS_append _ hdt hdl)
      · exact format_se_ok hsev hsh hdt hdh hdl

theorem se_ownRecords_ok (item : XmlNode) {comb sev : String} (hsev : sev ≠ "")
    (hsh : headNotWS sev = true) :
    ∀ r ∈ SideEffect.ownRecords item comb sev, recOK r := by
  intro r hr
  simp only [SideEffect.ownRecords] at hr
  rcases List.mem_append.mp hr with hdet | hhd
  · rw [List.mem_filterMap] at hdet
    obtain ⟨d, _, hsome⟩ := hdet
    split at hsome
    · rename_i hcond
      cases hsome
      exact renderDetail_ok hsev hsh hcond.2 (headNotWS_pstrip _)
        (lastNotWS_pstrip _) (headerTextOf_ws item).1
    · cases hsome
  · split at hhd
    · rename_i hcond
      rw [List.mem_singleton] at hhd
      subst hhd
      split
      · exact ⟨append_ne_left _ (by decide),
          headNotWS_append _ (by decide) (by decide),
          lastNotWS_append _ hcond.1 (headerTextOf_ws item).2⟩
      · exact format_se_ok hsev hsh hcond.1 (headerTextOf_ws item).1
          (headerTextOf_ws item).2
    · cases hhd

theorem se_process_ok :
    ∀ (n : Nat) (item : XmlNode), sizeOf item ≤ n →
      ∀ (cond sev : String), sev ≠ "" → headNotWS sev = true →
        ∀ r ∈ SideEffect.process_nested_items item cond sev, recOK r := by
  intro n
  induction n with
  | zero =>
    intro item hsz
    exact absurd hsz (by have := sizeOf_pos item; omega)
  | succ k ih =>
    intro item hsz cond sev hsev hsh r hr
    rw [se_process_flatMap] at hr
    rcases List.mem_append.mp hr with hown | hnested
    · exact se_ownRecords_ok item hsev hsh r hown
    · rw [List.mem_flatMap] at hnested
      obtain ⟨c, hc, hr2⟩ := hnested
      exact ih c (by have := sizeOf_childPath2_lt hc; omega) _ sev hsev hsh r hr2

theorem seCandidates_ok (root : XmlNode) :
    ∀ r ∈ SideEffect.seCandidates root, recOK r := by
  intro r hr
  unfold SideEffect.seCandidates at hr
  rw [List.mem_flatMap] at hr
  obtain ⟨ae, _, hr⟩ := hr
  rcases List.mem_append.mp hr with h1 | h2
  · rw [List.mem_flatMap] at h1
    obtain ⟨sa, _, h⟩ := h1
    unfold SideEffect.seriousCandidates at h
    rw [List.mem_flatMap] at h
    obtain ⟨it, _, h⟩ := h
    exact se_process_ok (sizeOf it) it (le_refl _) "" "重篤" (by decide)
      (by decide) r h
  · rw [List.mem_flatMap] at h2
    obtain ⟨oa, _, h⟩ := h2
    rcases List.mem_append.mp h with h3 | h4
    · unfold SideEffect.reactionCandidates at h3
      rw [List.mem_flatMap] at h3
      obtain ⟨ii, _, h⟩ := h3
      try dsimp only at h
      rw [List.mem_flatMap] at h
      obtain ⟨re, _, h⟩ := h
      rw [List.mem_filterMap] at h
      obtain ⟨d, _, hsome⟩ := h
      split at hsome
      · rename_i hcond
        cases hsome
        exact format_se_ok (by decide) (by decide) hcond.2
          (headNotWS_pstrip _) (lastNotWS_pstrip _)
      · cases hsome
    · unfold SideEffect.otherItemCandidates at h4
      rw [List.mem_flatMap] at h4
      obtain ⟨it, _, h⟩ := h4
      exact se_process_ok (sizeOf it) it (le_refl _) "" "非重篤" (by decide)
        (by decide) r h

/-- C7 (amended): every record returned by the dosage extractor is
non-empty with no leading whitespace, and also carries no trailing
whitespace except possibly the complex-path premise record; every record
returned by the side-effect extractor is non-empty and trimmed on both
sides. -/
theorem claim_c7 :
    (∀ (root : XmlNode) (fp : String) (l : List String),
      Dosage.extract_dosages root fp = Except.ok l →
      ∀ r ∈ l, r ≠ "" ∧ headNotWS r = true ∧
        (lastNotWS r = true ∨ isComplexPremise root r))
    ∧ (∀ root : XmlNode, ∀ r ∈ SideEffect.extract_side_effects root, recOK r) := by
  constructor
  · intro root fp l h r hr
    unfold Dosage.extract_dosages at h
    split at h
    · exact extract_complex_ok root h r hr
    · injection h with h
      subst h
      rcases mem_appendUnique _ _ hr with h0 | h1
      · cases h0
      · have hc := dosageCandidates_ok root r h1
        exact ⟨hc.1, hc.2.1, Or.inl hc.2.2⟩
  · intro root r hr
    unfold SideEffect.extract_side_effects at hr
    rcases mem_appendUnique _ _ hr with h0 | h1
    · cases h0
    · exact seCandidates_ok root r h1

/-- Counterexample to C7 as stated: in `docPremiseWS` the complex-path
premise record `1日2回 ` is returned with trailing whitespace. -/
theorem claim_c7_counterexample :
    Dosage.extract_dosages docPremiseWS "file.xml" =
      Except.ok ["1日2回 ", "A法:x", "B法:y"]
    ∧ lastNotWS "1日2回 " = false :=
  ⟨rfl, rfl⟩

/-- Witness for C7: a complex-path method record of `docBC` and the
serious-adverse record of `docSE`. -/
theorem claim_c7_witness :
    ("B法:x/体表面積r1:d1" ≠ "" ∧ headNotWS "B法:x/体表面積r1:d1" = true ∧
      (lastNotWS "B法:x/体表面積r1:d1" = true ∨
        isComplexPremise docBC "B法:x/体表面積r1:d1"))
    ∧ recOK "重篤:ショック:呼吸困難等が現れることがある" := by
  constructor
  · exact claim_c7.1 docBC "f.xml" ["B法：x", "B法:x/体表面積r1:d1", "C法:y"]
      rfl "B法:x/体表面積r1:d1" (by decide)
  · exact claim_c7.2 docSE "重篤:ショック:呼吸困難等が現れることがある" (by decide)
